import Mathlib

/-!
Verification of the task-lifecycle and format-routing core of the `3d.convert`
repository, via a shallow embedding of the relevant Python functions into Lean.

Conventions of the embedding:
* Format identifiers, converter keys and file paths are `String`s, as in the source.
* The Python code uses float edge weights `0.5` (alias formats) and `1.0`
  (ordinary edges), and compares accumulated costs against the integer
  `max_steps`.  All arising values are exact multiples of `0.5`, so the
  embedding stores weights doubled (`1` and `2`) in `ℕ` and compares against
  `2 * max_steps`; every comparison performed by the source is preserved
  exactly under this doubling.
* Loops that Python runs unboundedly (`while pq`, path reconstruction) are
  written with an explicit fuel argument; the fuel supplied by the top-level
  functions is proved sufficient, so exhaustion is unreachable.
* The Redis store is a function from keys to an optional (field map,
  expiry time) pair; each store operation receives the current time `now`,
  and a key is live while `now < expiry`, mirroring Redis TTL expiry.
-/

namespace Conv3d

/-- A registered converter capability (`BaseConverter` in the source): its two
format identifiers and its `convert` behaviour.  `run` takes the set of files
currently on disk and the input/output paths, and returns the success flag,
the result string (output path or error text) and the updated set of files;
the concrete geometry transformations are opaque collaborators, so `run` is an
arbitrary function supplied per converter. -/
structure Converter where
  input_format : String
  output_format : String
  run : List String → String → String → Bool × String × List String

/-- `ConverterManager.registry`: converter keys mapped to converter instances.
A `dict` preserving insertion order is modelled as an association list. -/
abbrev Registry := List (String × Converter)

/-- `key in self.registry` -/
def registry_has (reg : Registry) (k : String) : Bool :=
  (reg.lookup k).isSome

/-- Python's `str.lower()` on the ASCII format identifiers, written through
`List.map` so that it evaluates by kernel reduction. -/
def str_lower (s : String) : String :=
  ⟨s.data.map Char.toLower⟩

/-- The weight rule of `_build_format_graph`, doubled: alias pairs inside
{step, stp} or {iges, igs} get `0.5` (here `1`), everything else `1.0`
(here `2`). -/
def weight_for (input_fmt output_fmt : String) : Nat :=
  if ((input_fmt == "step" || input_fmt == "stp") &&
      (output_fmt == "step" || output_fmt == "stp")) ||
     ((input_fmt == "iges" || input_fmt == "igs") &&
      (output_fmt == "iges" || output_fmt == "igs"))
  then 1 else 2

/-- `self.format_graph` as built by `_build_format_graph`: for each registry
entry an edge `input_fmt → (output_fmt, key, weight)`, in registry order. -/
def format_graph (reg : Registry) (fmt : String) : List (String × String × Nat) :=
  (reg.filter (fun p => str_lower p.2.input_format == fmt)).map
    (fun p => (str_lower p.2.output_format, p.1,
      weight_for (str_lower p.2.input_format) (str_lower p.2.output_format)))

/-- Python tuple comparison `(cost, fmt) < (cost', fmt')` used by `heapq`. -/
def entry_lt (a b : Nat × String) : Bool :=
  decide (a.1 < b.1) || (decide (a.1 = b.1) && decide (a.2 < b.2))

/-- `heapq.heappop` returns the least element of the heap; the heap is
modelled as a plain list, so the popped value is the least entry. -/
def pq_min : List (Nat × String) → Option (Nat × String)
  | [] => none
  | e :: es => some (es.foldl (fun m x => if entry_lt x m then x else m) e)

/-- The mutable state of the Dijkstra search in `find_conversion_path`:
the `dist` and `prev` dicts and the priority queue. -/
structure DState where
  dist : String → Option Nat
  prev : String → Option (String × String)
  pq : List (Nat × String)

/-- One relaxation attempt of `find_conversion_path`'s inner loop: if
`next_fmt` is not yet in `dist` or the new accumulated cost improves on it,
record the new distance and predecessor and push the queue entry. -/
def relax_one (cost : Nat) (current next_fmt key : String) (w : Nat)
    (s : DState) : DState :=
  let nc := cost + w
  let fired : DState :=
    ⟨fun y => if y == next_fmt then some nc else s.dist y,
     fun y => if y == next_fmt then some (current, key) else s.prev y,
     (nc, next_fmt) :: s.pq⟩
  match s.dist next_fmt with
  | none => fired
  | some d => if nc < d then fired else s

/-- The inner `for next_fmt, converter_key, weight in self.format_graph[current]`
relaxation loop of `find_conversion_path`. -/
def relax_edges (cost : Nat) (current : String) :
    List (String × String × Nat) → DState → DState
  | [], s => s
  | (next_fmt, key, w) :: rest, s =>
    relax_edges cost current rest (relax_one cost current next_fmt key w s)

/-- The `while pq:` loop of `find_conversion_path`.  `B` is `2 * max_steps`
(the doubled pruning bound), `target` the lowercased output format.  The loop
pops the least queue entry, stops when the target is popped, skips expansion
when the popped cost reaches the bound, and otherwise relaxes the outgoing
edges.  Fuel exhaustion returns the current state; the fuel passed by
`find_conversion_path` is proved sufficient. -/
def dijkstra_loop (B : Nat) (adj : String → List (String × String × Nat))
    (target : String) : Nat → DState → DState
  | 0, s => s
  | fuel + 1, s =>
    match pq_min s.pq with
    | none => s
    | some e =>
      let s' : DState := ⟨s.dist, s.prev, s.pq.erase e⟩
      if e.2 == target then s'
      else if B ≤ e.1 then dijkstra_loop B adj target fuel s'
      else dijkstra_loop B adj target fuel (relax_edges e.1 e.2 (adj e.2) s')

/-- The `while current != input_fmt` reconstruction loop of
`find_conversion_path`; steps are consed in front of `acc`, which equals the
Python append-then-reverse.  A missing `prev` entry or fuel exhaustion stops
the walk (both unreachable under the loop invariants). -/
def rebuild_path (prev : String → Option (String × String)) (input_fmt : String) :
    Nat → String → List (String × String × String) → List (String × String × String)
  | 0, _, acc => acc
  | fuel + 1, current, acc =>
    if current == input_fmt then acc
    else match prev current with
      | none => acc
      | some (p, k) => rebuild_path prev input_fmt fuel p ((p, current, k) :: acc)

/-- The formats that can ever appear as `dist`/`prev` keys: the source format
and every edge target of the graph.  Used only to size the loop fuel. -/
def graph_nodes (reg : Registry) (src : String) : List String :=
  src :: reg.map (fun p => str_lower p.2.output_format)

/-- Fuel for `dijkstra_loop`, large enough to outlast the loop's decreasing
potential (proved below). -/
def dijkstra_fuel (reg : Registry) (max_steps : Nat) (src : String) : Nat :=
  2 + 2 * (graph_nodes reg src).length * (2 * max_steps + 3)

/-- `ConverterManager.find_conversion_path`: identity short-circuit, direct-edge
short-circuit, otherwise the weight-pruned Dijkstra search plus path
reconstruction. -/
def find_conversion_path (reg : Registry) (input_fmt output_fmt : String)
    (max_steps : Nat) : List (String × String × String) :=
  let inF := (str_lower input_fmt)
  let outF := (str_lower output_fmt)
  if inF == outF then []
  else
    let direct_key := inF ++ "_to_" ++ outF
    if registry_has reg direct_key then [(inF, outF, direct_key)]
    else
      let s0 : DState :=
        ⟨fun y => if y == inF then some 0 else none, fun _ => none, [(0, inF)]⟩
      let s1 := dijkstra_loop (2 * max_steps) (format_graph reg) outF
        (dijkstra_fuel reg max_steps inF) s0
      match s1.prev outF with
      | none => []
      | some _ => rebuild_path s1.prev inF (2 * max_steps + 2) outF []

/-! ### Execution of a conversion path (`convert_with_path`, `convert`)

File-system effects are tracked explicitly: the set of files on disk is a
`List String`, `tempfile.NamedTemporaryFile` allocates the next name of a
counter-indexed sequence, and each converter's `convert` acts on the file set
through its `run` function.  The outcome distinguishes a normal `(bool, str)`
return from a propagated exception (e.g. the `KeyError` of a failed registry
lookup). -/

/-- A Python-level outcome: a `(bool, str)` return value or an uncaught
exception. -/
inductive PyResult where
  | ret : Bool → String → PyResult
  | exn : String → PyResult
deriving DecidableEq, Repr

/-- The name produced by the `NamedTemporaryFile(suffix=f'.{dst_fmt}')` call
for the `n`-th temporary of the process. -/
def temp_name (n : Nat) (fmt : String) : String :=
  "/tmp/tmp" ++ toString n ++ "." ++ fmt

/-- Worker-visible state threaded through an execution: the files on disk and
the temporary-name counter. -/
structure CwpState where
  fs : List String
  next_tmp : Nat

/-- Result of a `convert_with_path`/`convert` call: the Python outcome, the
final disk state, the converter keys invoked in order, and the temporary
files created by this call. -/
structure CwpOut where
  result : PyResult
  fs : List String
  next_tmp : Nat
  invoked : List String
  temps : List String

/-- Intermediate state of the `for i, (src_fmt, dst_fmt, converter_key) in
enumerate(path[:-1])` loop. -/
structure MidState where
  current_input : String
  fs : List String
  next_tmp : Nat
  invoked : List String
  temps : List String

/-- The middle-steps loop of `convert_with_path`: create a temporary named
after the step's destination format, run the step's converter into it, abort
with the step's error on failure, otherwise feed the temporary to the next
step.  Returns the state together with `some r` when the loop exited early
with outcome `r`. -/
def run_middle (reg : Registry) :
    List (String × String × String) → Nat → MidState → MidState × Option PyResult
  | [], _, st => (st, none)
  | (src_fmt, dst_fmt, key) :: rest, i, st =>
    let tp := temp_name st.next_tmp dst_fmt
    let st1 : MidState :=
      ⟨st.current_input, tp :: st.fs, st.next_tmp + 1, st.invoked, st.temps ++ [tp]⟩
    match reg.lookup key with
    | none => (st1, some (.exn ("KeyError: " ++ key)))
    | some conv =>
      let out := conv.run st1.fs st1.current_input tp
      let st2 : MidState := ⟨st1.current_input, out.2.2, st1.next_tmp,
        st1.invoked ++ [key], st1.temps⟩
      if out.1 then
        run_middle reg rest (i + 1) ⟨tp, st2.fs, st2.next_tmp, st2.invoked, st2.temps⟩
      else
        (st2, some (.ret false ("转换路径中的步骤 " ++ toString (i + 1) ++ " 失败: "
          ++ src_fmt ++ " -> " ++ dst_fmt)))

/-- Python truthiness of an optional string argument (`None` and `""` are
falsy). -/
def py_truthy : Option String → Bool
  | none => false
  | some s => !s.isEmpty

/-- `str(x)` as used by the f-string error message (`None` prints as
`"None"`). -/
def py_str : Option String → String
  | none => "None"
  | some s => s

/-- The last step of a multi-step path: run the step's converter into the
caller-supplied output path. -/
def run_last (reg : Registry) (output_path : String)
    (step : String × String × String) (mid : MidState) : PyResult × MidState :=
  match reg.lookup step.2.2 with
  | none => (.exn ("KeyError: " ++ step.2.2), mid)
  | some conv =>
    let out := conv.run mid.fs mid.current_input output_path
    let mid2 : MidState := ⟨mid.current_input, out.2.2, mid.next_tmp,
      mid.invoked ++ [step.2.2], mid.temps⟩
    if out.1 then (.ret true out.2.1, mid2)
    else (.ret false ("最后一步转换失败: " ++ step.1 ++ " -> " ++ step.2.1), mid2)

/-- `ConverterManager.convert_with_path`.  The argument order and defaults
mirror the source: a possibly pre-computed path, then the optional
`input_fmt`/`output_fmt` (recomputed path when the given one is falsy and both
formats are truthy).  The multi-step branch runs inside `try/finally`: every
temporary recorded in `temp_files` is deleted before the call returns,
whatever the outcome. -/
def convert_with_path (reg : Registry) (input_path output_path : String)
    (conversion_path : List (String × String × String))
    (input_fmt output_fmt : Option String) (st : CwpState) : CwpOut :=
  let path :=
    if conversion_path.isEmpty && py_truthy input_fmt && py_truthy output_fmt then
      find_conversion_path reg (input_fmt.getD "") (output_fmt.getD "") 3
    else conversion_path
  match path with
  | [] =>
    ⟨.ret false ("无法找到从 " ++ py_str input_fmt ++ " 到 " ++ py_str output_fmt
      ++ " 的转换路径"), st.fs, st.next_tmp, [], []⟩
  | [(src_fmt, dst_fmt, key)] =>
    (match reg.lookup key with
     | none => ⟨.exn ("KeyError: " ++ key), st.fs, st.next_tmp, [], []⟩
     | some conv =>
       let out := conv.run st.fs input_path output_path
       if out.1 then ⟨.ret true out.2.1, out.2.2, st.next_tmp, [key], []⟩
       else ⟨.ret false ("转换失败: " ++ src_fmt ++ " -> " ++ dst_fmt),
         out.2.2, st.next_tmp, [key], []⟩)
  | s1 :: s2 :: rest =>
    let path2 := s1 :: s2 :: rest
    let mid0 : MidState := ⟨input_path, st.fs, st.next_tmp, [], []⟩
    let stepped := run_middle reg path2.dropLast 0 mid0
    let fin : PyResult × MidState :=
      match stepped.2 with
      | some r => (r, stepped.1)
      | none => run_last reg output_path (path2.getLast (by simp [path2])) stepped.1
    ⟨fin.1, fin.2.fs.filter (fun f => !fin.2.temps.contains f), fin.2.next_tmp,
      fin.2.invoked, fin.2.temps⟩

/-- The extension part of `os.path.splitext` (POSIX rules): the suffix from
the last dot of the basename, unless every basename character before that dot
is itself a dot. -/
def last_idx_of : List Char → Char → Option Nat
  | [], _ => none
  | a :: l, c =>
    match last_idx_of l c with
    | some i => some (i + 1)
    | none => if a = c then some 0 else none

/-- `os.path.splitext(p)[1]`. -/
def splitext_ext (p : String) : String :=
  let cs := p.data
  match last_idx_of cs '.' with
  | none => ""
  | some di =>
    let fi := match last_idx_of cs '/' with
      | none => 0
      | some si => si + 1
    if fi ≤ di && ((cs.drop fi).take (di - fi)).any (· ≠ '.') then
      String.mk (cs.drop di)
    else ""

/-- `.lstrip('.')`. -/
def lstrip_dots (s : String) : String :=
  String.mk (s.data.dropWhile (· = '.'))

/-- `ConverterManager.convert`: infer missing formats from the file
extensions, lower-case them, copy verbatim when they coincide, otherwise call
`find_conversion_path` and pass the resulting path to `convert_with_path` —
positionally, so the `input_fmt`/`output_fmt` parameters of
`convert_with_path` keep their `None` defaults. -/
def convert (reg : Registry) (input_path output_path : String)
    (input_fmt output_fmt : Option String) (st : CwpState) : CwpOut :=
  let inF0 := if py_truthy input_fmt then input_fmt.getD ""
    else lstrip_dots (str_lower (splitext_ext input_path))
  let outF0 := if py_truthy output_fmt then output_fmt.getD ""
    else lstrip_dots (str_lower (splitext_ext output_path))
  let inF := str_lower inF0
  let outF := str_lower outF0
  if inF == outF then
    if st.fs.contains input_path then
      ⟨.ret true output_path, output_path :: st.fs, st.next_tmp, [], []⟩
    else
      ⟨.ret false ("复制文件失败: [Errno 2] " ++ input_path), st.fs, st.next_tmp, [], []⟩
  else
    convert_with_path reg input_path output_path
      (find_conversion_path reg inF outF 3) none none st

/-! ### Task store and lifecycle (`task_manager.py`, `service/worker.py`)

A Redis hash is a field map (association list with in-place update and
append, matching `HSET` semantics); the store maps keys to a hash plus its
absolute expiry time.  Every operation takes the current time `now`; a key is
visible only while `now < expiry`, which models Redis TTL expiry as observed
through `EXISTS`/`HGET`. -/

/-- A Redis hash: ordered field/value pairs. -/
abbrev Fields := List (String × String)

/-- `HGET` / `dict.get`. -/
def fget (fs : Fields) (k : String) : Option String :=
  fs.lookup k

/-- `HSET` of one field: overwrite in place if present, append otherwise. -/
def fset (fs : Fields) (k v : String) : Fields :=
  if (fs.lookup k).isSome then
    fs.map (fun p => if p.1 == k then (k, v) else p)
  else fs ++ [(k, v)]

/-- `HSET mapping=...`: merge the updates left to right. -/
def fmerge (fs : Fields) (updates : Fields) : Fields :=
  updates.foldl (fun a p => fset a p.1 p.2) fs

/-- The Redis store: key to (hash, absolute expiry time). -/
abbrev Store := String → Option (Fields × Nat)

/-- The key `f"task:{task_id}"`. -/
def task_key (task_id : String) : String :=
  "task:" ++ task_id

/-- A key's hash when the key exists and has not expired (`EXISTS` +
`HGETALL`). -/
def store_live (now : Nat) (st : Store) (key : String) : Option Fields :=
  match st key with
  | some fe => if now < fe.2 then some fe.1 else none
  | none => none

/-- `create_task`: write the `TaskStatusResponse` field map with
`status=QUEUED`, `created_at=updated_at=now`, then `EXPIRE key 300`. -/
def create_task (now : Nat) (st : Store) (task_id input_file output_format : String) :
    Store :=
  let f : Fields :=
    [("task_id", task_id), ("status", "QUEUED"), ("input_file", input_file),
     ("output_format", output_format), ("created_at", toString now),
     ("updated_at", toString now), ("result_url", ""), ("error", "")]
  fun k => if k == task_key task_id then some (f, now + 300) else st k

/-- `update_task_status`: `EXISTS` check, then `HSET` of the new status,
refreshed `updated_at` and the extra fields.  `HSET` does not touch the key's
TTL, so the expiry time is carried over unchanged. -/
def update_task_status (now : Nat) (st : Store) (task_id status : String)
    (additional : Fields) : Bool × Store :=
  match st (task_key task_id) with
  | none => (false, st)
  | some fe =>
    if now < fe.2 then
      let f' := fmerge fe.1 ([("status", status), ("updated_at", toString now)]
        ++ additional)
      (true, fun k => if k == task_key task_id then some (f', fe.2) else st k)
    else (false, st)

/-- `get_task_status`: `EXISTS` then `HGETALL`. -/
def get_task_status (now : Nat) (st : Store) (task_id : String) : Option Fields :=
  store_live now st (task_key task_id)

/-- `claim_task_with_lua`: the Lua script runs as one atomic Redis operation —
`HGET status`; if it equals `'QUEUED'`, `HSET status PROCESSING` and return 1,
else return 0.  A missing or expired key yields nil ≠ `'QUEUED'`, hence 0. -/
def claim_task_with_lua (now : Nat) (st : Store) (task_id : String) : Bool × Store :=
  match st (task_key task_id) with
  | none => (false, st)
  | some fe =>
    if now < fe.2 then
      if fget fe.1 "status" == some "QUEUED" then
        (true, fun k => if k == task_key task_id then
          some (fset fe.1 "status" "PROCESSING", fe.2) else st k)
      else (false, st)
    else (false, st)

/-- `n` claim attempts on one task, serialised in some order (the Lua script
is atomic, so any concurrent schedule is equivalent to such a serial run);
returns how many of them received `true`. -/
def claim_many (now : Nat) (st : Store) (task_id : String) : Nat → Nat × Store
  | 0 => (0, st)
  | n + 1 =>
    let r := claim_task_with_lua now st task_id
    let rest := claim_many now r.2 task_id n
    ((if r.1 then 1 else 0) + rest.1, rest.2)

/-- `int(task_info.get("retry_count", 0))`. -/
def retry_count_of (f : Fields) : Nat :=
  match fget f "retry_count" with
  | none => 0
  | some s => s.toNat?.getD 0

/-- `requeue_task`: read the record (`false` when gone), then unconditionally
update it to `QUEUED` with `retry_count` incremented, push the task back on
the queue list, and return `true`. -/
def requeue_task (now : Nat) (st : Store) (task_id : String) : Bool × Store :=
  match get_task_status now st task_id with
  | none => (false, st)
  | some f =>
    let upd := update_task_status now st task_id "QUEUED"
      [("retry_count", toString (retry_count_of f + 1))]
    (true, upd.2)

/-! ### Worker (`api/worker.py`) -/

/-- The collaborator outcomes a single `process_task` run can observe:
download, `ConverterManager().convert`, the output-file existence check, and
the R2 upload. -/
structure WorkerEnv where
  download_ok : Bool
  download_err : String
  convert_ok : Bool
  convert_msg : String
  result_exists : Bool
  upload_ok : Bool
  upload_msg : String

/-- The `(status, extra fields)` update that `process_task` sends for the
task: the `try` body raises on the first failing step and the shared `except`
block reports `FAILED` with the exception text; if every step succeeds, the
success branch posts status `"FINISH"` with the result URL. -/
def process_task_update (env : WorkerEnv) : String × Fields :=
  if !env.download_ok then
    ("FAILED", [("error", "FAILED: 下载文件失败: 下载文件失败: " ++ env.download_err)])
  else if !env.convert_ok then
    ("FAILED", [("error", "FAILED: 文件转换失败: " ++ env.convert_msg)])
  else if !env.result_exists then
    ("FAILED", [("error", "FAILED: 转换成功但输出文件不存在: " ++ env.convert_msg)])
  else if !env.upload_ok then
    ("FAILED", [("error", "FAILED: R2上传失败: " ++ env.upload_msg)])
  else
    ("FINISH", [("result_url", env.upload_msg)])

/-- One iteration of `worker_loop`: poll for a task, process it if present;
`process_task` catches every exception internally and the loop body is
additionally wrapped in `try/except`, so the iteration always reports the
update (if any) and continues — the boolean is `true` iff the loop keeps
running afterwards. -/
def worker_iteration (task : Option WorkerEnv) : Bool × Option (String × Fields) :=
  (true, task.map process_task_update)

/-! ### Graph paths

Specification-side notions used to state properties of
`find_conversion_path`: a step list is a chain through the format graph, its
weight is the sum of the (doubled) edge weights, and a path is
`prefix_bounded B` when every proper prefix weighs strictly less than `B` —
which is exactly the set of paths the pruned search can traverse. -/

/-- `path_steps_ok adj v p w`: the step list `p` is a chain of `adj`-edges
from `v` to `w` (each step records its source, destination and converter
key). -/
def path_steps_ok (adj : String → List (String × String × Nat)) :
    String → List (String × String × String) → String → Prop
  | v, [], w => v = w
  | v, (a, b, k) :: rest, w =>
    a = v ∧ (∃ wt, (b, k, wt) ∈ adj a) ∧ path_steps_ok adj b rest w

/-- Total (doubled) weight of a step list under the weight rule of
`_build_format_graph`. -/
def path_weight : List (String × String × String) → Nat
  | [] => 0
  | (a, b, _) :: rest => weight_for a b + path_weight rest

/-- Every proper prefix weighs strictly less than `B`. -/
def prefix_bounded (B : Nat) (p : List (String × String × String)) : Prop :=
  ∀ n, n < p.length → path_weight (p.take n) < B

theorem weight_for_pos (a b : String) : 1 ≤ weight_for a b := by
  unfold weight_for
  split <;> omega

theorem weight_for_le (a b : String) : weight_for a b ≤ 2 := by
  unfold weight_for
  split <;> omega

theorem path_weight_append (p q : List (String × String × String)) :
    path_weight (p ++ q) = path_weight p + path_weight q := by
  induction p with
  | nil => simp [path_weight]
  | cons s rest ih =>
    obtain ⟨a, b, k⟩ := s
    simp [path_weight, ih]
    omega

theorem path_steps_ok_append_one (adj : String → List (String × String × Nat))
    {src u v k : String} {p : List (String × String × String)} {wt : Nat}
    (hp : path_steps_ok adj src p u) (he : (v, k, wt) ∈ adj u) :
    path_steps_ok adj src (p ++ [(u, v, k)]) v := by
  induction p generalizing src with
  | nil =>
    cases hp
    exact ⟨rfl, ⟨wt, he⟩, rfl⟩
  | cons s rest ih =>
    obtain ⟨a, b, k'⟩ := s
    obtain ⟨ha, hedge, hrest⟩ := hp
    exact ⟨ha, hedge, ih hrest⟩

/-! ### Priority-queue lemmas -/

theorem entry_lt_iff (a b : Nat × String) :
    entry_lt a b = true ↔ a.1 < b.1 ∨ (a.1 = b.1 ∧ a.2 < b.2) := by
  unfold entry_lt
  simp

theorem entry_lt_false (a b : Nat × String) :
    entry_lt a b = false ↔ ¬(a.1 < b.1 ∨ (a.1 = b.1 ∧ a.2 < b.2)) := by
  rw [← Bool.not_eq_true, entry_lt_iff]

theorem entry_lt_false' (a b : Nat × String) (h : entry_lt a b = false) :
    b.1 ≤ a.1 := by
  have h' := (entry_lt_false a b).mp h
  by_contra hc
  exact h' (Or.inl (by omega))

theorem entry_lt_false_iff_le (a b : Nat × String) :
    entry_lt b a = false ↔ a.1 < b.1 ∨ (a.1 = b.1 ∧ a.2 ≤ b.2) := by
  rw [entry_lt_false]
  constructor
  · intro h
    rcases Nat.lt_trichotomy a.1 b.1 with hlt | heq | hgt
    · exact Or.inl hlt
    · refine Or.inr ⟨heq, ?_⟩
      by_contra hs
      exact h (Or.inr ⟨heq.symm, not_le.mp hs⟩)
    · exact absurd (Or.inl hgt) h
  · rintro (hlt | ⟨heq, hs⟩) (h | ⟨h1, h2⟩) <;> try omega
    · exact absurd (lt_of_lt_of_le h2 hs) (lt_irrefl _)

theorem entry_le_trans {a b c : Nat × String} (h1 : entry_lt b a = false)
    (h2 : entry_lt c b = false) : entry_lt c a = false := by
  rw [entry_lt_false_iff_le] at *
  rcases h1 with h1 | ⟨e1, s1⟩ <;> rcases h2 with h2 | ⟨e2, s2⟩
  · exact Or.inl (by omega)
  · exact Or.inl (by omega)
  · exact Or.inl (by omega)
  · exact Or.inr ⟨by omega, le_trans s1 s2⟩

theorem entry_lt_irrefl (a : Nat × String) : entry_lt a a = false := by
  rw [entry_lt_false_iff_le]
  exact Or.inr ⟨rfl, le_refl _⟩

theorem entry_le_of_lt {a b : Nat × String} (h : entry_lt a b = true) :
    entry_lt b a = false := by
  rw [entry_lt_false_iff_le]
  rw [entry_lt_iff] at h
  rcases h with h | ⟨h1, h2⟩
  · exact Or.inl h
  · exact Or.inr ⟨h1, le_of_lt h2⟩

theorem fold_min_mem (es : List (Nat × String)) (e : Nat × String) :
    es.foldl (fun m x => if entry_lt x m then x else m) e ∈ e :: es := by
  induction es generalizing e with
  | nil => simp
  | cons x rest ih =>
    simp only [List.foldl_cons]
    by_cases hx : entry_lt x e = true
    · rw [if_pos hx]
      rcases List.mem_cons.mp (ih x) with h' | h'
      · simp [h']
      · simp [h']
    · rw [if_neg hx]
      rcases List.mem_cons.mp (ih e) with h' | h'
      · simp [h']
      · simp [h']

theorem fold_min_le (es : List (Nat × String)) (e : Nat × String) :
    ∀ y ∈ e :: es,
      entry_lt y (es.foldl (fun m x => if entry_lt x m then x else m) e) = false := by
  induction es generalizing e with
  | nil =>
    intro y hy
    simp only [List.foldl_nil]
    have he : y = e := by simpa using hy
    rw [he]
    exact entry_lt_irrefl e
  | cons x rest ih =>
    intro y hy
    simp only [List.foldl_cons]
    by_cases hx : entry_lt x e = true
    · rw [if_pos hx]
      have hxm : entry_lt x
          (rest.foldl (fun m x => if entry_lt x m then x else m) x) = false :=
        ih x x (List.mem_cons_self x rest)
      rcases List.mem_cons.mp hy with rfl | hy'
      · exact entry_le_trans hxm (entry_le_of_lt hx)
      · rcases List.mem_cons.mp hy' with rfl | hy''
        · exact hxm
        · exact ih x y (List.mem_cons_of_mem x hy'')
    · rw [if_neg hx]
      have hxf : entry_lt x e = false := by
        rwa [Bool.not_eq_true] at hx
      have hem : entry_lt e
          (rest.foldl (fun m x => if entry_lt x m then x else m) e) = false :=
        ih e e (List.mem_cons_self e rest)
      rcases List.mem_cons.mp hy with rfl | hy'
      · exact hem
      · rcases List.mem_cons.mp hy' with rfl | hy''
        · exact entry_le_trans hem hxf
        · exact ih e y (List.mem_cons_of_mem e hy'')

theorem pq_min_mem {l : List (Nat × String)} {e : Nat × String}
    (h : pq_min l = some e) : e ∈ l := by
  cases l with
  | nil => simp [pq_min] at h
  | cons a es =>
    simp only [pq_min, Option.some.injEq] at h
    subst h
    exact fold_min_mem es a

theorem pq_min_not_lt {l : List (Nat × String)} {e : Nat × String}
    (h : pq_min l = some e) : ∀ y ∈ l, entry_lt y e = false := by
  cases l with
  | nil => simp [pq_min] at h
  | cons a es =>
    simp only [pq_min, Option.some.injEq] at h
    subst h
    exact fold_min_le es a

theorem pq_min_none {l : List (Nat × String)} (h : pq_min l = none) : l = [] := by
  cases l with
  | nil => rfl
  | cons a es => simp [pq_min] at h

/-! ### Relaxation-step lemmas -/

/-- Case analysis for a single relaxation: either nothing fires (the target
already has a distance at most `cost + weight`), or the state is updated. -/
theorem relax_one_cases (c : Nat) (u b k : String) (w : Nat) (s : DState) :
    (relax_one c u b k w s = s ∧ ∃ d, s.dist b = some d ∧ d ≤ c + w) ∨
    (relax_one c u b k w s =
        ⟨fun y => if y == b then some (c + w) else s.dist y,
         fun y => if y == b then some (u, k) else s.prev y,
         (c + w, b) :: s.pq⟩ ∧
      (s.dist b = none ∨ ∃ d, s.dist b = some d ∧ c + w < d)) := by
  cases hdb : s.dist b with
  | none =>
    right
    constructor
    · simp only [relax_one, hdb]
    · exact Or.inl rfl
  | some d =>
    by_cases hlt : c + w < d
    · right
      constructor
      · simp only [relax_one, hdb, if_pos hlt]
      · exact Or.inr ⟨d, rfl, hlt⟩
    · left
      constructor
      · simp only [relax_one, hdb, if_neg hlt]
      · exact ⟨d, rfl, by omega⟩

theorem relax_one_pq_mono {c : Nat} {u b k : String} {w : Nat} {s : DState}
    {y : Nat × String} (hy : y ∈ s.pq) : y ∈ (relax_one c u b k w s).pq := by
  rcases relax_one_cases c u b k w s with ⟨heq, -⟩ | ⟨heq, -⟩ <;> rw [heq]
  · exact hy
  · exact List.mem_cons_of_mem _ hy

theorem relax_one_dist_mono (c : Nat) (u b k : String) (w : Nat) {s : DState}
    {x : String} {d : Nat} (hd : s.dist x = some d) :
    ∃ d', (relax_one c u b k w s).dist x = some d' ∧ d' ≤ d := by
  rcases relax_one_cases c u b k w s with ⟨heq, -⟩ | ⟨heq, hfi⟩ <;> rw [heq]
  · exact ⟨d, hd, le_refl _⟩
  · by_cases hxb : x = b
    · subst hxb
      refine ⟨c + w, by simp, ?_⟩
      rcases hfi with hnone | ⟨d0, hd0, hlt⟩
      · rw [hd] at hnone
        cases hnone
      · rw [hd] at hd0
        cases hd0
        omega
    · exact ⟨d, by simp [hxb, hd], le_refl _⟩

theorem relax_pq_mono (c : Nat) (u : String) :
    ∀ (es : List (String × String × Nat)) (s : DState) (y : Nat × String),
      y ∈ s.pq → y ∈ (relax_edges c u es s).pq := by
  intro es
  induction es with
  | nil => intro s y hy; exact hy
  | cons e rest ih =>
    intro s y hy
    obtain ⟨b, k, w⟩ := e
    exact ih _ y (relax_one_pq_mono hy)

theorem relax_dist_mono (c : Nat) (u : String) :
    ∀ (es : List (String × String × Nat)) (s : DState) (x : String) (d : Nat),
      s.dist x = some d →
        ∃ d', (relax_edges c u es s).dist x = some d' ∧ d' ≤ d := by
  intro es
  induction es with
  | nil => intro s x d hd; exact ⟨d, hd, le_refl d⟩
  | cons e rest ih =>
    intro s x d hd
    obtain ⟨b, k, w⟩ := e
    obtain ⟨d1, hd1, hle1⟩ := relax_one_dist_mono c u b k w hd
    obtain ⟨d2, hd2, hle2⟩ := ih _ x d1 hd1
    exact ⟨d2, hd2, le_trans hle2 hle1⟩

/-- Targets of relaxed edges end up with a distance at most `cost + weight`. -/
theorem relax_dist_target (c : Nat) (u : String) :
    ∀ (es : List (String × String × Nat)) (s : DState) (b k : String) (w : Nat),
      (b, k, w) ∈ es →
        ∃ d', (relax_edges c u es s).dist b = some d' ∧ d' ≤ c + w := by
  intro es
  induction es with
  | nil => intro s b k w h; simp at h
  | cons e rest ih =>
    intro s b k w hmem
    rcases List.mem_cons.mp hmem with heq | hrest
    · subst heq
      have hafter : ∃ d0, (relax_one c u b k w s).dist b = some d0 ∧ d0 ≤ c + w := by
        rcases relax_one_cases c u b k w s with ⟨heq', hno⟩ | ⟨heq', -⟩ <;> rw [heq']
        · exact hno
        · exact ⟨c + w, by simp, le_refl _⟩
      obtain ⟨d0, hd0, hle0⟩ := hafter
      obtain ⟨d2, hd2, hle2⟩ := relax_dist_mono c u rest _ b d0 hd0
      exact ⟨d2, hd2, le_trans hle2 hle0⟩
    · obtain ⟨b', k', w'⟩ := e
      exact ih _ b k w hrest

/-- If every edge target already has a distance at most `cost + weight`, the
relaxation loop changes nothing. -/
theorem relax_noop (c : Nat) (u : String) :
    ∀ (es : List (String × String × Nat)) (s : DState),
      (∀ e ∈ es, ∃ d', s.dist e.1 = some d' ∧ d' ≤ c + e.2.2) →
        relax_edges c u es s = s := by
  intro es
  induction es with
  | nil => intro s _; rfl
  | cons e rest ih =>
    intro s h
    obtain ⟨b, k, w⟩ := e
    obtain ⟨d', hd', hle⟩ := h (b, k, w) (List.mem_cons_self _ _)
    have hd2 : s.dist b = some d' := hd'
    have hle2 : d' ≤ c + w := hle
    have hone : relax_one c u b k w s = s := by
      rcases relax_one_cases c u b k w s with ⟨heq, -⟩ | ⟨-, hfi⟩
      · exact heq
      · exfalso
        rcases hfi with hnone | ⟨d0, hd0, hlt⟩
        · rw [hd2] at hnone
          cases hnone
        · rw [hd2] at hd0
          cases hd0
          omega
    simp only [relax_edges, hone]
    exact ih s (fun e he => h e (List.mem_cons_of_mem _ he))

/-- Edges out of the popped node never fire back into it, so its distance is
unchanged by its own expansion. -/
theorem relax_dist_self (c : Nat) (u : String) (du : Nat) (hduc : du ≤ c) :
    ∀ (es : List (String × String × Nat)) (s : DState),
      (∀ e ∈ es, 1 ≤ e.2.2) → s.dist u = some du →
        (relax_edges c u es s).dist u = some du := by
  intro es
  induction es with
  | nil => intro s _ h; exact h
  | cons e rest ih =>
    intro s hw hd
    obtain ⟨b, k, w⟩ := e
    have hw1 : 1 ≤ w := hw (b, k, w) (List.mem_cons_self _ _)
    have hone : (relax_one c u b k w s).dist u = some du := by
      rcases relax_one_cases c u b k w s with ⟨heq, -⟩ | ⟨heq, hfi⟩ <;> rw [heq]
      · exact hd
      · have hbu : ¬ (u = b) := by
          intro h
          subst h
          rcases hfi with hnone | ⟨d0, hd0, hlt⟩
          · rw [hd] at hnone
            cases hnone
          · rw [hd] at hd0
            cases hd0
            omega
        simp only [beq_iff_eq, if_neg hbu]
        exact hd
    exact ih _ (fun e he => hw e (List.mem_cons_of_mem _ he)) hone

/-! ### The Dijkstra loop invariant

`DInv` holds of every state the loop reaches: `dist src = 0` and `src` never
gains a predecessor; every queue entry's node has a recorded distance at most
the entry's key; every recorded distance is still represented in the queue,
or has reached the pruning bound, or has had all its outgoing edges relaxed;
every `prev` entry corresponds to a graph edge that tightens the distance,
with the predecessor's distance below the bound; every non-source node with a
distance has a predecessor; and all distances stay at most `B + 1`.
`DInvExcept` is the same invariant with the frontier obligation waived at one
node (the node currently being expanded). -/

structure DInv (adj : String → List (String × String × Nat)) (B : Nat)
    (src : String) (s : DState) : Prop where
  dist_src : s.dist src = some 0
  prev_src : s.prev src = none
  pq_dist : ∀ e ∈ s.pq, ∃ d, s.dist e.2 = some d ∧ d ≤ e.1
  frontier : ∀ x d, s.dist x = some d →
    (d, x) ∈ s.pq ∨ B ≤ d ∨
      ∀ e ∈ adj x, ∃ d', s.dist e.1 = some d' ∧ d' ≤ d + e.2.2
  prev_edge : ∀ x u' k, s.prev x = some (u', k) →
    ∃ w du dx, (x, k, w) ∈ adj u' ∧ s.dist u' = some du ∧ s.dist x = some dx ∧
      du + w ≤ dx ∧ du < B
  dist_prev : ∀ x d, s.dist x = some d → x = src ∨ s.prev x ≠ none
  dist_bound : ∀ x d, s.dist x = some d → d ≤ B + 1

structure DInvExcept (adj : String → List (String × String × Nat)) (B : Nat)
    (src u : String) (s : DState) : Prop where
  dist_src : s.dist src = some 0
  prev_src : s.prev src = none
  pq_dist : ∀ e ∈ s.pq, ∃ d, s.dist e.2 = some d ∧ d ≤ e.1
  frontier_ne : ∀ x d, s.dist x = some d → x ≠ u →
    (d, x) ∈ s.pq ∨ B ≤ d ∨
      ∀ e ∈ adj x, ∃ d', s.dist e.1 = some d' ∧ d' ≤ d + e.2.2
  prev_edge : ∀ x u' k, s.prev x = some (u', k) →
    ∃ w du dx, (x, k, w) ∈ adj u' ∧ s.dist u' = some du ∧ s.dist x = some dx ∧
      du + w ≤ dx ∧ du < B
  dist_prev : ∀ x d, s.dist x = some d → x = src ∨ s.prev x ≠ none
  dist_bound : ∀ x d, s.dist x = some d → d ≤ B + 1

/-- A single relaxation of an edge out of `u`, popped with its exact recorded
distance `c < B`, preserves the waived invariant and keeps `dist u = c`. -/
theorem relax_one_preserves {adj : String → List (String × String × Nat)}
    {B : Nat} {src u : String} {c : Nat} {b k : String} {w : Nat} {s : DState}
    (hw1 : 1 ≤ w) (hw2 : w ≤ 2) (hc : c < B)
    (hedge : (b, k, w) ∈ adj u) (hdu : s.dist u = some c)
    (hx : DInvExcept adj B src u s) :
    DInvExcept adj B src u (relax_one c u b k w s) ∧
      (relax_one c u b k w s).dist u = some c ∧
      ∃ d', (relax_one c u b k w s).dist b = some d' ∧ d' ≤ c + w := by
  rcases relax_one_cases c u b k w s with ⟨heq, hno⟩ | ⟨heq, hfi⟩
  · rw [heq]
    exact ⟨hx, hdu, hno⟩
  · have hbu : b ≠ u := by
      intro h
      subst h
      rcases hfi with hnone | ⟨d0, hd0, hlt⟩
      · rw [hdu] at hnone
        cases hnone
      · rw [hdu] at hd0
        cases hd0
        omega
    have hbsrc : b ≠ src := by
      intro h
      subst h
      rcases hfi with hnone | ⟨d0, hd0, hlt⟩
      · rw [hx.dist_src] at hnone
        cases hnone
      · rw [hx.dist_src] at hd0
        cases hd0
        omega
    have hfire' : ∀ dv, s.dist b = some dv → c + w < dv := by
      intro dv hdv
      rcases hfi with hnone | ⟨d0, hd0, hlt⟩
      · rw [hdv] at hnone
        cases hnone
      · rw [hdv] at hd0
        cases hd0
        exact hlt
    rw [heq]
    have hdb : ∀ y, (if (y == b) = true then some (c + w) else s.dist y)
        = if y = b then some (c + w) else s.dist y := by
      intro y
      simp
    have hpb : ∀ y, (if (y == b) = true then some (u, k) else s.prev y)
        = if y = b then some (u, k) else s.prev y := by
      intro y
      simp
    refine ⟨⟨?_, ?_, ?_, ?_, ?_, ?_, ?_⟩, ?_, ?_⟩
    · dsimp only
      rw [hdb, if_neg (Ne.symm hbsrc)]
      exact hx.dist_src
    · dsimp only
      rw [hpb, if_neg (Ne.symm hbsrc)]
      exact hx.prev_src
    · intro e he
      dsimp only at he ⊢
      rcases List.mem_cons.mp he with rfl | he'
      · exact ⟨c + w, by rw [hdb]; simp, le_refl _⟩
      · obtain ⟨d, hd, hde⟩ := hx.pq_dist e he'
        by_cases heb : e.2 = b
        · have := hfire' d (heb ▸ hd)
          exact ⟨c + w, by rw [hdb, if_pos heb], by omega⟩
        · exact ⟨d, by rw [hdb, if_neg heb]; exact hd, hde⟩
    · intro z d hd hzu
      dsimp only at hd ⊢
      rw [hdb] at hd
      by_cases hzb : z = b
      · rw [if_pos hzb] at hd
        cases hd
        rw [hzb]
        exact Or.inl (List.mem_cons_self _ _)
      · rw [if_neg hzb] at hd
        rcases hx.frontier_ne z d hd hzu with h1 | h2 | h3
        · exact Or.inl (List.mem_cons_of_mem _ h1)
        · exact Or.inr (Or.inl h2)
        · refine Or.inr (Or.inr ?_)
          intro e he
          obtain ⟨d', hd', hle'⟩ := h3 e he
          by_cases heb : e.1 = b
          · have := hfire' d' (heb ▸ hd')
            exact ⟨c + w, by rw [hdb, if_pos heb], by omega⟩
          · exact ⟨d', by rw [hdb, if_neg heb]; exact hd', hle'⟩
    · intro z u2 k2 hp
      dsimp only at hp ⊢
      rw [hpb] at hp
      by_cases hzb : z = b
      · subst hzb
        rw [if_pos rfl] at hp
        cases hp
        refine ⟨w, c, c + w, hedge, ?_, ?_, le_refl _, hc⟩
        · rw [hdb, if_neg (Ne.symm hbu)]
          exact hdu
        · rw [hdb, if_pos rfl]
      · rw [if_neg hzb] at hp
        obtain ⟨w', du', dx', he', hdu', hdx', hle', hduB⟩ :=
          hx.prev_edge z u2 k2 hp
        by_cases hub : u2 = b
        · have := hfire' du' (hub ▸ hdu')
          refine ⟨w', c + w, dx', he', ?_, ?_, by omega, by omega⟩
          · rw [hdb, if_pos hub]
          · rw [hdb, if_neg hzb]
            exact hdx'
        · exact ⟨w', du', dx', he', by rw [hdb, if_neg hub]; exact hdu',
            by rw [hdb, if_neg hzb]; exact hdx', hle', hduB⟩
    · intro z d hd
      dsimp only at hd ⊢
      rw [hdb] at hd
      by_cases hzb : z = b
      · refine Or.inr ?_
        rw [hpb, if_pos hzb]
        simp
      · rw [if_neg hzb] at hd
        rcases hx.dist_prev z d hd with h | h
        · exact Or.inl h
        · refine Or.inr ?_
          rw [hpb, if_neg hzb]
          exact h
    · intro z d hd
      dsimp only at hd
      rw [hdb] at hd
      by_cases hzb : z = b
      · rw [if_pos hzb] at hd
        cases hd
        omega
      · rw [if_neg hzb] at hd
        exact hx.dist_bound z d hd
    · dsimp only
      rw [hdb, if_neg (Ne.symm hbu)]
      exact hdu
    · exact ⟨c + w, by dsimp only; rw [hdb]; simp, le_refl _⟩

/-- Expanding a node popped with key equal to its recorded distance restores
the full invariant. -/
theorem relax_preserves_A {adj : String → List (String × String × Nat)}
    {B : Nat} {src u : String} {c : Nat}
    (hw : ∀ x e, e ∈ adj x → 1 ≤ e.2.2 ∧ e.2.2 ≤ 2) (hc : c < B) :
    ∀ (es : List (String × String × Nat)) (s : DState),
      (∀ e ∈ es, e ∈ adj u) → s.dist u = some c →
      DInvExcept adj B src u s →
      (∀ e ∈ adj u, e ∈ es ∨ ∃ d', s.dist e.1 = some d' ∧ d' ≤ c + e.2.2) →
      DInv adj B src (relax_edges c u es s) := by
  intro es
  induction es with
  | nil =>
    intro s _ hdu hx hufr
    simp only [relax_edges]
    refine ⟨hx.dist_src, hx.prev_src, hx.pq_dist, ?_, hx.prev_edge,
      hx.dist_prev, hx.dist_bound⟩
    intro x d hd
    by_cases hxu : x = u
    · subst hxu
      rw [hdu] at hd
      cases hd
      refine Or.inr (Or.inr ?_)
      intro e he
      rcases hufr e he with h | h
      · simp at h
      · exact h
    · exact hx.frontier_ne x d hd hxu
  | cons e0 rest ih =>
    intro s hsub hdu hx hufr
    obtain ⟨b, k, w⟩ := e0
    have hedge : (b, k, w) ∈ adj u := hsub _ (List.mem_cons_self _ _)
    obtain ⟨hx1, hdu1, d1, hd1, hle1⟩ := relax_one_preserves (hw u _ hedge).1
      (hw u _ hedge).2 hc hedge hdu hx
    simp only [relax_edges]
    refine ih _ (fun e he => hsub e (List.mem_cons_of_mem _ he)) hdu1 hx1 ?_
    intro e he
    rcases hufr e he with hin | ⟨d', hd', hle'⟩
    · rcases List.mem_cons.mp hin with rfl | hin'
      · exact Or.inr ⟨d1, hd1, hle1⟩
      · exact Or.inl hin'
    · obtain ⟨d2, hd2, hle2⟩ := relax_one_dist_mono c u b k w hd'
      exact Or.inr ⟨d2, hd2, by omega⟩


/-! ### Loop-level invariant preservation -/

/-- The part of the invariant needed after the loop finishes (the `break`
discards the popped entry, so queue-related clauses are dropped). -/
structure DBase (adj : String → List (String × String × Nat)) (B : Nat)
    (src : String) (s : DState) : Prop where
  dist_src : s.dist src = some 0
  prev_src : s.prev src = none
  prev_edge : ∀ x u' k, s.prev x = some (u', k) →
    ∃ w du dx, (x, k, w) ∈ adj u' ∧ s.dist u' = some du ∧ s.dist x = some dx ∧
      du + w ≤ dx ∧ du < B
  dist_prev : ∀ x d, s.dist x = some d → x = src ∨ s.prev x ≠ none
  dist_bound : ∀ x d, s.dist x = some d → d ≤ B + 1

theorem DInv.base {adj : String → List (String × String × Nat)} {B : Nat}
    {src : String} {s : DState} (h : DInv adj B src s) : DBase adj B src s :=
  ⟨h.dist_src, h.prev_src, h.prev_edge, h.dist_prev, h.dist_bound⟩

theorem DBase.erase {adj : String → List (String × String × Nat)} {B : Nat}
    {src : String} {s : DState} (h : DBase adj B src s) (e : Nat × String) :
    DBase adj B src ⟨s.dist, s.prev, s.pq.erase e⟩ :=
  ⟨h.dist_src, h.prev_src, h.prev_edge, h.dist_prev, h.dist_bound⟩

/-- Pruned pops preserve the full invariant. -/
theorem erase_prune_inv {adj : String → List (String × String × Nat)} {B : Nat}
    {src : String} {s : DState} (e : Nat × String) (h : DInv adj B src s)
    (hB : B ≤ e.1) : DInv adj B src ⟨s.dist, s.prev, s.pq.erase e⟩ := by
  refine ⟨h.dist_src, h.prev_src, ?_, ?_, h.prev_edge, h.dist_prev, h.dist_bound⟩
  · intro e' he'
    exact h.pq_dist e' (List.mem_of_mem_erase he')
  · intro x d hd
    rcases h.frontier x d hd with h1 | h2 | h3
    · by_cases hpe : (d, x) = e
      · refine Or.inr (Or.inl ?_)
        have hde : d = e.1 := by rw [← hpe]
        omega
      · exact Or.inl ((List.mem_erase_of_ne hpe).mpr h1)
    · exact Or.inr (Or.inl h2)
    · exact Or.inr (Or.inr h3)

/-- Popping an entry waives the frontier only at the popped node. -/
theorem erase_except {adj : String → List (String × String × Nat)} {B : Nat}
    {src : String} {s : DState} (h : DInv adj B src s) (c : Nat) (u : String) :
    DInvExcept adj B src u ⟨s.dist, s.prev, s.pq.erase (c, u)⟩ := by
  refine ⟨h.dist_src, h.prev_src, ?_, ?_, h.prev_edge, h.dist_prev, h.dist_bound⟩
  · intro e' he'
    exact h.pq_dist e' (List.mem_of_mem_erase he')
  · intro x d hd hxu
    rcases h.frontier x d hd with h1 | h2 | h3
    · have hne : (d, x) ≠ (c, u) := by
        intro hpe
        exact hxu (congrArg Prod.snd hpe)
      exact Or.inl ((List.mem_erase_of_ne hne).mpr h1)
    · exact Or.inr (Or.inl h2)
    · exact Or.inr (Or.inr h3)

/-- A stale pop (key strictly above the recorded distance) can only happen
when every edge of the popped node is already fully relaxed. -/
theorem stale_relaxed {adj : String → List (String × String × Nat)} {B : Nat}
    {src : String} {s : DState} {c du : Nat} {u : String} (h : DInv adj B src s)
    (hmin : pq_min s.pq = some (c, u)) (hcB : c < B)
    (hdu : s.dist u = some du) (hlt : du < c) :
    ∀ e ∈ adj u, ∃ d', s.dist e.1 = some d' ∧ d' ≤ c + e.2.2 := by
  rcases h.frontier u du hdu with h1 | h2 | h3
  · exfalso
    have hflt := pq_min_not_lt hmin (du, u) h1
    rw [entry_lt_false] at hflt
    exact hflt (Or.inl hlt)
  · omega
  · intro e he
    obtain ⟨d', hd', hle'⟩ := h3 e he
    exact ⟨d', hd', by omega⟩

/-- An expansion step (pop below the bound, not the target) preserves the full
invariant. -/
theorem expand_inv {adj : String → List (String × String × Nat)} {B : Nat}
    {src u : String} {c : Nat} {s : DState}
    (hw : ∀ x e, e ∈ adj x → 1 ≤ e.2.2 ∧ e.2.2 ≤ 2)
    (h : DInv adj B src s) (hmin : pq_min s.pq = some (c, u)) (hcB : c < B) :
    DInv adj B src
      (relax_edges c u (adj u) ⟨s.dist, s.prev, s.pq.erase (c, u)⟩) := by
  obtain ⟨du, hdu, hduc⟩ := h.pq_dist (c, u) (pq_min_mem hmin)
  by_cases hdc : du = c
  · subst hdc
    exact relax_preserves_A hw hcB (adj u) _ (fun e he => he) hdu
      (erase_except h du u) (fun e he => Or.inl he)
  · have hlt : du < c := by omega
    have hrel := stale_relaxed h hmin hcB hdu hlt
    have hnoop : relax_edges c u (adj u)
        (⟨s.dist, s.prev, s.pq.erase (c, u)⟩ : DState) =
        ⟨s.dist, s.prev, s.pq.erase (c, u)⟩ :=
      relax_noop c u (adj u) _ hrel
    rw [hnoop]
    refine ⟨h.dist_src, h.prev_src, ?_, ?_, h.prev_edge, h.dist_prev,
      h.dist_bound⟩
    · intro e' he'
      exact h.pq_dist e' (List.mem_of_mem_erase he')
    · intro x d hd
      rcases h.frontier x d hd with h1 | h2 | h3
      · have hne : (d, x) ≠ (c, u) := by
          intro hpe
          have hxu : x = u := congrArg Prod.snd hpe
          have hdc' : d = c := congrArg Prod.fst hpe
          rw [hxu, hdu] at hd
          cases hd
          omega
        exact Or.inl ((List.mem_erase_of_ne hne).mpr h1)
      · exact Or.inr (Or.inl h2)
      · exact Or.inr (Or.inr h3)

/-- Whatever state the loop stops in satisfies the rebuild-relevant invariant. -/
theorem loop_base {adj : String → List (String × String × Nat)} {B : Nat}
    {src target : String}
    (hw : ∀ x e, e ∈ adj x → 1 ≤ e.2.2 ∧ e.2.2 ≤ 2) :
    ∀ (fuel : Nat) (s : DState), DInv adj B src s →
      DBase adj B src (dijkstra_loop B adj target fuel s) := by
  intro fuel
  induction fuel with
  | zero => intro s h; exact h.base
  | succ fuel ih =>
    intro s h
    rw [dijkstra_loop]
    cases hmin : pq_min s.pq with
    | none => exact h.base
    | some e =>
      obtain ⟨c, u⟩ := e
      dsimp only
      by_cases ht : u = target
      · rw [if_pos (by simp [ht])]
        exact (h.base).erase (c, u)
      · rw [if_neg (by simp [ht])]
        by_cases hB : B ≤ c
        · rw [if_pos hB]
          exact ih _ (erase_prune_inv (c, u) h hB)
        · rw [if_neg hB]
          exact ih _ (expand_inv hw h hmin (by omega))



/-! ### Completeness of the pruned search -/

/-- Completeness witness: either the target's recorded distance is already
within `Wtot`, or the queue holds an entry from which a remaining chain
reaches the target within `Wtot`, all of whose proper prefixes stay below the
pruning bound. -/
def ReachInv (adj : String → List (String × String × Nat)) (B : Nat)
    (dst : String) (Wtot : Nat) (s : DState) : Prop :=
  (∃ dd, s.dist dst = some dd ∧ dd ≤ Wtot) ∨
  (∃ c v Wv rest, (c, v) ∈ s.pq ∧ c ≤ Wv ∧ path_steps_ok adj v rest dst ∧
    Wv + path_weight rest ≤ Wtot ∧
    ∀ n, n < rest.length → Wv + path_weight (rest.take n) < B)

/-- Walking forward along a chain from a node whose distance is settled below
its budget, the frontier invariant yields a queue witness or settles the
target. -/
theorem cascade {adj : String → List (String × String × Nat)} {B : Nat}
    {src dst : String} {Wtot : Nat} {s : DState}
    (h : DInv adj B src s)
    (hadj_w : ∀ x e, e ∈ adj x → e.2.2 = weight_for x e.1) :
    ∀ (rest : List (String × String × String)) (v : String) (Wv d : Nat),
      path_steps_ok adj v rest dst → s.dist v = some d → d ≤ Wv →
      (∀ n, n < rest.length → Wv + path_weight (rest.take n) < B) →
      Wv + path_weight rest ≤ Wtot →
      ReachInv adj B dst Wtot s := by
  intro rest
  induction rest with
  | nil =>
    intro v Wv d hsteps hd hdW _ htot
    cases hsteps
    exact Or.inl ⟨d, hd, by simp [path_weight] at htot; omega⟩
  | cons st rest' ih =>
    intro v Wv d hsteps hd hdW hbnd htot
    obtain ⟨a, b, k⟩ := st
    obtain ⟨ha, ⟨wt, hedge⟩, hrest⟩ := hsteps
    subst ha
    have hWvB : Wv < B := by
      have h0 := hbnd 0 (by simp)
      simpa [path_weight] using h0
    rcases h.frontier a d hd with h1 | h2 | h3
    · exact Or.inr ⟨d, a, Wv, (a, b, k) :: rest', h1, hdW,
        ⟨rfl, ⟨wt, hedge⟩, hrest⟩, htot, hbnd⟩
    · omega
    · obtain ⟨d', hd', hle'⟩ := h3 (b, k, wt) hedge
      have hwt : wt = weight_for a b := hadj_w a (b, k, wt) hedge
      have hle2 : d' ≤ d + wt := hle'
      have hle3 : d' ≤ d + weight_for a b := by omega
      refine ih b (Wv + weight_for a b) d' hrest hd' (by omega) ?_ ?_
      · intro n hn
        have hs := hbnd (n + 1) (by simp only [List.length_cons]; omega)
        have hpw : path_weight (((a, b, k) :: rest').take (n + 1)) =
            weight_for a b + path_weight (rest'.take n) := by
          rw [List.take_succ_cons]
          rfl
        omega
      · have hpw : path_weight ((a, b, k) :: rest') =
            weight_for a b + path_weight rest' := rfl
        omega

/-! ### The loop potential -/

/-- One node's contribution to the loop potential. -/
def slack (M : Nat) : Option Nat → Nat
  | none => M
  | some d => d + 1

/-- The loop potential: queue size plus twice the summed distance slack over
the nodes the search can touch. -/
def phi (nodes : List String) (M : Nat) (s : DState) : Nat :=
  s.pq.length + 2 * (nodes.map (fun x => slack M (s.dist x))).sum

theorem sum_map_le_of_le {α : Type} (l : List α) (f g : α → Nat)
    (hle : ∀ x ∈ l, f x ≤ g x) : (l.map f).sum ≤ (l.map g).sum := by
  induction l with
  | nil => simp
  | cons a rest ih =>
    simp only [List.map_cons, List.sum_cons]
    have h1 := hle a (List.mem_cons_self _ _)
    have h2 := ih (fun x hx => hle x (List.mem_cons_of_mem _ hx))
    omega

theorem sum_map_lt_of_mem {α : Type} (l : List α) (f g : α → Nat)
    (hle : ∀ x ∈ l, f x ≤ g x) (x0 : α) (hx0 : x0 ∈ l) (hlt : f x0 < g x0) :
    (l.map f).sum < (l.map g).sum := by
  induction l with
  | nil => simp at hx0
  | cons a rest ih =>
    simp only [List.map_cons, List.sum_cons]
    rcases List.mem_cons.mp hx0 with rfl | hx0'
    · have hr := sum_map_le_of_le rest f g
        (fun x hx => hle x (List.mem_cons_of_mem _ hx))
      omega
    · have h1 := hle a (List.mem_cons_self _ _)
      have h2 := ih (fun x hx => hle x (List.mem_cons_of_mem _ hx)) hx0'
      omega

theorem phi_relax_one_le {nodes : List String} {M c : Nat} {u b k : String}
    {w : Nat} {s : DState} (hb : b ∈ nodes) (hM : c + w + 2 ≤ M) :
    phi nodes M (relax_one c u b k w s) ≤ phi nodes M s := by
  rcases relax_one_cases c u b k w s with ⟨heq, -⟩ | ⟨heq, hfi⟩
  · rw [heq]
  · rw [heq]
    dsimp only [phi]
    have hself : (if (b == b) = true then some (c + w) else s.dist b)
        = some (c + w) := by simp
    have keyb : slack M (if (b == b) = true then some (c + w) else s.dist b) <
        slack M (s.dist b) := by
      rw [hself]
      rcases hfi with hnone | ⟨d0, hd0, hlt0⟩
      · rw [hnone]
        simp only [slack]
        omega
      · rw [hd0]
        simp only [slack]
        omega
    have key : ∀ x ∈ nodes,
        slack M (if (x == b) = true then some (c + w) else s.dist x) ≤
        slack M (s.dist x) := by
      intro x _
      by_cases hxb : x = b
      · subst hxb
        exact le_of_lt keyb
      · have hre : (if (x == b) = true then some (c + w) else s.dist x)
            = s.dist x := by simp [hxb]
        rw [hre]
    have hlt := sum_map_lt_of_mem nodes
      (fun x => slack M (if (x == b) = true then some (c + w) else s.dist x))
      (fun x => slack M (s.dist x)) key b hb keyb
    simp only [List.length_cons]
    omega

theorem phi_relax_le {nodes : List String} {M : Nat} {adj : String → List (String × String × Nat)}
    {c : Nat} {u : String}
    (hn : ∀ x e, e ∈ adj x → e.1 ∈ nodes)
    (hw : ∀ x e, e ∈ adj x → e.2.2 ≤ 2) (hcM : c + 4 ≤ M) :
    ∀ (es : List (String × String × Nat)) (s : DState),
      (∀ e ∈ es, e ∈ adj u) →
      phi nodes M (relax_edges c u es s) ≤ phi nodes M s := by
  intro es
  induction es with
  | nil => intro s _; exact le_refl _
  | cons e0 rest ih =>
    intro s hsub
    obtain ⟨b, k, w⟩ := e0
    have hedge : (b, k, w) ∈ adj u := hsub _ (List.mem_cons_self _ _)
    have h1 : phi nodes M (relax_one c u b k w s) ≤ phi nodes M s := by
      have h2 : w ≤ 2 := hw u _ hedge
      exact phi_relax_one_le (hn u _ hedge) (by omega)
    calc phi nodes M (relax_edges c u ((b, k, w) :: rest) s)
        = phi nodes M (relax_edges c u rest (relax_one c u b k w s)) := rfl
      _ ≤ phi nodes M (relax_one c u b k w s) :=
          ih _ (fun e he => hsub e (List.mem_cons_of_mem _ he))
      _ ≤ phi nodes M s := h1

theorem phi_erase_lt (nodes : List String) (M : Nat) {s : DState}
    {e : Nat × String} (he : e ∈ s.pq) :
    phi nodes M ⟨s.dist, s.prev, s.pq.erase e⟩ < phi nodes M s := by
  dsimp only [phi]
  have hlen : (s.pq.erase e).length = s.pq.length - 1 :=
    List.length_erase_of_mem he
  have hpos : 1 ≤ s.pq.length := List.length_pos.mpr (by
    intro hnil
    rw [hnil] at he
    simp at he)
  omega

/-- The main completeness run: with enough fuel, the loop ends with the
target settled within the witness bound. -/
theorem loop_completeness {adj : String → List (String × String × Nat)}
    {B : Nat} {src target : String} {nodes : List String} {M Wtot : Nat}
    (hw : ∀ x e, e ∈ adj x → 1 ≤ e.2.2 ∧ e.2.2 ≤ 2)
    (hn : ∀ x e, e ∈ adj x → e.1 ∈ nodes)
    (hadj_w : ∀ x e, e ∈ adj x → e.2.2 = weight_for x e.1)
    (hsrc_ne : src ≠ target) (hMB : M = B + 3) :
    ∀ (fuel : Nat) (s : DState), phi nodes M s < fuel →
      DInv adj B src s → ReachInv adj B target Wtot s →
      ∃ dd, (dijkstra_loop B adj target fuel s).dist target = some dd ∧
        dd ≤ Wtot := by
  intro fuel
  induction fuel with
  | zero => intro s hphi; omega
  | succ fuel ih =>
    intro s hphi h hr
    rw [dijkstra_loop]
    cases hmin : pq_min s.pq with
    | none =>
      rcases hr with hl | ⟨c, v, Wv, rest, hmem, -⟩
      · exact hl
      · rw [pq_min_none hmin] at hmem
        simp at hmem
    | some e =>
      obtain ⟨c, u⟩ := e
      dsimp only
      by_cases ht : u = target
      · subst ht
        rw [if_pos (by simp)]
        rcases hr with ⟨dd, hdd, hW⟩ | ⟨c', v, Wv, rest, hmem, hcW, hsteps, htot, hbnd⟩
        · exact ⟨dd, hdd, hW⟩
        · obtain ⟨du, hdu, hduc⟩ := h.pq_dist (c, u) (pq_min_mem hmin)
          have hmle := entry_lt_false' (c', v) (c, u)
            (pq_min_not_lt hmin (c', v) hmem)
          have hmle2 : c ≤ c' := hmle
          have hduc2 : du ≤ c := hduc
          exact ⟨du, hdu, by omega⟩
      · rw [if_neg (by simp [ht])]
        by_cases hB : B ≤ c
        · rw [if_pos hB]
          have hr' : ReachInv adj B target Wtot ⟨s.dist, s.prev, s.pq.erase (c, u)⟩ := by
            rcases hr with hl | ⟨c', v, Wv, rest, hmem, hcW, hsteps, htot, hbnd⟩
            · exact Or.inl hl
            · have hne : (c', v) ≠ (c, u) := by
                intro hpe
                cases rest with
                | nil =>
                  have hvt : v = target := hsteps
                  have hvu : v = u := congrArg Prod.snd hpe
                  exact ht (hvu.symm.trans hvt)
                | cons st rest' =>
                  have hb0 := hbnd 0 (by simp)
                  simp [path_weight] at hb0
                  have hc'B : c' < B := by omega
                  have : c' = c := congrArg Prod.fst hpe
                  omega
              exact Or.inr ⟨c', v, Wv, rest,
                (List.mem_erase_of_ne hne).mpr hmem, hcW, hsteps, htot, hbnd⟩
          refine ih (⟨s.dist, s.prev, s.pq.erase (c, u)⟩ : DState) ?_
            (erase_prune_inv (c, u) h hB) hr'
          have h2 := phi_erase_lt nodes M (pq_min_mem hmin)
          omega
        · rw [if_neg hB]
          have hcB : c < B := by omega
          have hinv2 := expand_inv hw h hmin hcB
          have hphi2 : phi nodes M
              (relax_edges c u (adj u) ⟨s.dist, s.prev, s.pq.erase (c, u)⟩) < fuel := by
            have h1 : phi nodes M (relax_edges c u (adj u)
                (⟨s.dist, s.prev, s.pq.erase (c, u)⟩ : DState)) ≤
                phi nodes M (⟨s.dist, s.prev, s.pq.erase (c, u)⟩ : DState) :=
              phi_relax_le hn (fun x e he => (hw x e he).2) (by omega) (adj u)
                (⟨s.dist, s.prev, s.pq.erase (c, u)⟩ : DState) (fun e he => he)
            have h2 := phi_erase_lt nodes M (pq_min_mem hmin)
            omega
          have hr2 : ReachInv adj B target Wtot
              (relax_edges c u (adj u) ⟨s.dist, s.prev, s.pq.erase (c, u)⟩) := by
            rcases hr with ⟨dd, hdd, hW⟩ | ⟨c', v, Wv, rest, hmem, hcW, hsteps, htot, hbnd⟩
            · obtain ⟨dd', hdd', hle'⟩ := relax_dist_mono c u (adj u)
                (⟨s.dist, s.prev, s.pq.erase (c, u)⟩ : DState) target dd hdd
              exact Or.inl ⟨dd', hdd', by omega⟩
            · by_cases hpe : (c', v) = (c, u)
              · have hc' : c' = c := congrArg Prod.fst hpe
                have hv : v = u := congrArg Prod.snd hpe
                rw [hc'] at hcW
                rw [hv] at hsteps
                cases rest with
                | nil =>
                  have hvt : u = target := hsteps
                  exact absurd hvt ht
                | cons st rest' =>
                  obtain ⟨a, b, k⟩ := st
                  obtain ⟨ha, ⟨wt, hedge⟩, hrest⟩ := hsteps
                  rw [ha] at hedge
                  obtain ⟨db, hdb, hdble⟩ := relax_dist_target c u (adj u)
                    (⟨s.dist, s.prev, s.pq.erase (c, u)⟩ : DState) b k wt hedge
                  have hwt : wt = weight_for u b := hadj_w u (b, k, wt) hedge
                  have hdble2 : db ≤ c + wt := hdble
                  have hab : weight_for a b = weight_for u b := by rw [ha]
                  have hdbW : db ≤ Wv + weight_for u b := by omega
                  refine cascade hinv2 hadj_w rest' b (Wv + weight_for u b) db hrest hdb
                    hdbW ?_ ?_
                  · intro n hn'
                    have hs2 := hbnd (n + 1) (by simp only [List.length_cons]; omega)
                    have hpw : path_weight (((a, b, k) :: rest').take (n + 1)) =
                        weight_for a b + path_weight (rest'.take n) := by
                      rw [List.take_succ_cons]
                      rfl
                    omega
                  · have hpw : path_weight ((a, b, k) :: rest') =
                        weight_for a b + path_weight rest' := rfl
                    omega
              · have hmem2 : (c', v) ∈
                    (relax_edges c u (adj u) ⟨s.dist, s.prev, s.pq.erase (c, u)⟩).pq :=
                  relax_pq_mono c u (adj u) _ (c', v)
                    ((List.mem_erase_of_ne hpe).mpr hmem)
                exact Or.inr ⟨c', v, Wv, rest, hmem2, hcW, hsteps, htot, hbnd⟩
          exact ih _ hphi2 hinv2 hr2



/-! ### Path reconstruction -/

theorem take_append_le {α : Type} :
    ∀ (l1 l2 : List α) (n : Nat), n ≤ l1.length →
      (l1 ++ l2).take n = l1.take n := by
  intro l1
  induction l1 with
  | nil =>
    intro l2 n hn
    simp at hn
    simp [hn]
  | cons a rest ih =>
    intro l2 n hn
    cases n with
    | zero => simp
    | succ m =>
      simp only [List.cons_append, List.take_succ_cons]
      rw [ih l2 m (by simpa using hn)]

/-- Following the `prev` pointers from any node with a recorded distance
rebuilds a valid chain from the source whose weight is bounded by that
distance and whose proper prefixes stay below the pruning bound. -/
theorem rebuild_ok {adj : String → List (String × String × Nat)} {B : Nat}
    {src : String} {T : DState}
    (hw1 : ∀ x e, e ∈ adj x → 1 ≤ e.2.2)
    (hadj_w : ∀ x e, e ∈ adj x → e.2.2 = weight_for x e.1)
    (hb : DBase adj B src T) :
    ∀ (fuel : Nat) (cur : String) (acc : List (String × String × String)) (d : Nat),
      T.dist cur = some d → d < fuel →
      ∃ pre, rebuild_path T.prev src fuel cur acc = pre ++ acc ∧
        path_steps_ok adj src pre cur ∧ path_weight pre ≤ d ∧
        (∀ n, n < pre.length → path_weight (pre.take n) < B) := by
  intro fuel
  induction fuel with
  | zero => intro cur acc d _ h; omega
  | succ fuel ih =>
    intro cur acc d hd hdf
    by_cases hcs : cur = src
    · refine ⟨[], ?_, ?_, ?_, ?_⟩
      · rw [rebuild_path, if_pos (by simp [hcs])]
        rfl
      · exact hcs.symm
      · exact Nat.zero_le _
      · intro n hn
        simp at hn
    · rcases hb.dist_prev cur d hd with h | h
      · exact absurd h hcs
      · cases hp : T.prev cur with
        | none => exact absurd hp h
        | some uk =>
          obtain ⟨u, k⟩ := uk
          obtain ⟨w, du, dx, hedge, hdu, hdx, hle, hduB⟩ := hb.prev_edge cur u k hp
          rw [hd] at hdx
          cases hdx
          have hw1' : 1 ≤ w := hw1 u _ hedge
          obtain ⟨pre', heq', hsteps', hwle', hbnd'⟩ :=
            ih u ((u, cur, k) :: acc) du hdu (by omega)
          refine ⟨pre' ++ [(u, cur, k)], ?_, ?_, ?_, ?_⟩
          · rw [rebuild_path, if_neg (by simp [hcs]), hp]
            dsimp only
            rw [heq']
            simp
          · exact path_steps_ok_append_one adj hsteps' hedge
          · rw [path_weight_append]
            have hwk : w = weight_for u cur := hadj_w u _ hedge
            have : path_weight [(u, cur, k)] = weight_for u cur := by
              simp [path_weight]
            omega
          · intro n hn
            simp only [List.length_append, List.length_cons, List.length_nil] at hn
            by_cases hnl : n < pre'.length
            · rw [take_append_le pre' [(u, cur, k)] n (by omega)]
              exact hbnd' n hnl
            · have hne : n = pre'.length := by omega
              rw [hne, take_append_le pre' [(u, cur, k)] pre'.length (le_refl _),
                List.take_length]
              omega

/-! ### Facts about the format graph -/

theorem format_graph_weight (reg : Registry) :
    ∀ f e, e ∈ format_graph reg f → e.2.2 = weight_for f e.1 := by
  intro f e he
  simp only [format_graph, List.mem_map] at he
  obtain ⟨p, hp, rfl⟩ := he
  have hin := (List.mem_filter.mp hp).2
  have : str_lower p.2.input_format = f := by simpa using hin
  rw [this]

theorem format_graph_weight_bounds (reg : Registry) :
    ∀ f e, e ∈ format_graph reg f → 1 ≤ e.2.2 ∧ e.2.2 ≤ 2 := by
  intro f e he
  have h := format_graph_weight reg f e he
  rw [h]
  exact ⟨weight_for_pos _ _, weight_for_le _ _⟩

theorem format_graph_target_nodes (reg : Registry) (src : String) :
    ∀ f e, e ∈ format_graph reg f → e.1 ∈ graph_nodes reg src := by
  intro f e he
  simp only [format_graph, List.mem_map] at he
  obtain ⟨p, hp, rfl⟩ := he
  refine List.mem_cons_of_mem _ ?_
  exact List.mem_map.mpr ⟨p, (List.mem_filter.mp hp).1, rfl⟩

theorem lookup_isSome_of_mem {k : String} {v : Converter} {reg : Registry}
    (h : (k, v) ∈ reg) : registry_has reg k = true := by
  induction reg with
  | nil => simp at h
  | cons p rest ih =>
    rcases List.mem_cons.mp h with rfl | h'
    · simp [registry_has, List.lookup]
    · by_cases hk : k = p.1
      · simp [registry_has, List.lookup, hk]
      · simp only [registry_has, List.lookup]
        have hkf : (k == p.1) = false := by simp [hk]
        rw [hkf]
        exact ih h'

theorem format_graph_key (reg : Registry) :
    ∀ f e, e ∈ format_graph reg f → registry_has reg e.2.1 = true := by
  intro f e he
  simp only [format_graph, List.mem_map] at he
  obtain ⟨p, hp, rfl⟩ := he
  exact lookup_isSome_of_mem ((List.mem_filter.mp hp).1)

/-! ### Chain shape of produced paths -/

/-- The purely structural part of a conversion path: consecutive steps link
up and the ends match. -/
def chain_ok : String → List (String × String × String) → String → Prop
  | v, [], z => v = z
  | v, (a, b, _) :: rest, z => a = v ∧ chain_ok b rest z

theorem chain_ok_of_steps {adj : String → List (String × String × Nat)} :
    ∀ (p : List (String × String × String)) (v z : String),
      path_steps_ok adj v p z → chain_ok v p z := by
  intro p
  induction p with
  | nil => intro v z h; exact h
  | cons st rest ih =>
    intro v z h
    obtain ⟨a, b, k⟩ := st
    obtain ⟨ha, -, hrest⟩ := h
    exact ⟨ha, ih b z hrest⟩

theorem steps_keys {reg : Registry} :
    ∀ (p : List (String × String × String)) (v z : String),
      path_steps_ok (format_graph reg) v p z →
      ∀ st ∈ p, registry_has reg st.2.2 = true := by
  intro p
  induction p with
  | nil => intro v z _ st hst; simp at hst
  | cons st0 rest ih =>
    intro v z h st hst
    obtain ⟨a, b, k⟩ := st0
    obtain ⟨ha, ⟨wt, hedge⟩, hrest⟩ := h
    rcases List.mem_cons.mp hst with rfl | hst'
    · exact format_graph_key reg a (b, k, wt) hedge
    · exact ih b z hrest st hst'



/-! ### Initial state, `toLower` idempotence, and the master search theorem -/

theorem toNat_ofNat_valid {n : Nat} (h : n.isValidChar) :
    (Char.ofNat n).toNat = n := by
  rw [Char.ofNat, dif_pos h]
  rfl

theorem char_toLower_idem (c : Char) : c.toLower.toLower = c.toLower := by
  unfold Char.toLower
  by_cases h : c.toNat ≥ 65 ∧ c.toNat ≤ 90
  · rw [if_pos h]
    have hv : (Char.ofNat (c.toNat + 32)).toNat = c.toNat + 32 :=
      toNat_ofNat_valid (Or.inl (by omega))
    rw [if_neg (by rw [hv]; omega)]
  · rw [if_neg h, if_neg h]

theorem str_lower_idem (s : String) : str_lower (str_lower s) = str_lower s := by
  show String.mk ((s.data.map Char.toLower).map Char.toLower) =
    String.mk (s.data.map Char.toLower)
  congr 1
  rw [List.map_map]
  apply List.map_congr_left
  intro c _
  exact char_toLower_idem c

theorem init_inv (adj : String → List (String × String × Nat)) (B : Nat)
    (src : String) :
    DInv adj B src
      ⟨fun y => if y == src then some 0 else none, fun _ => none, [(0, src)]⟩ := by
  refine ⟨by simp, rfl, ?_, ?_, ?_, ?_, ?_⟩
  · intro e he
    simp only [List.mem_singleton] at he
    subst he
    exact ⟨0, by simp, le_refl 0⟩
  · intro x d hd
    dsimp only at hd
    by_cases hx : x = src
    · subst hx
      rw [if_pos (beq_self_eq_true x)] at hd
      injection hd with hd
      rw [← hd]
      exact Or.inl (List.mem_singleton.mpr rfl)
    · rw [if_neg (by simp [hx])] at hd
      cases hd
  · intro x u k hp
    cases hp
  · intro x d hd
    dsimp only at hd
    by_cases hx : x = src
    · exact Or.inl hx
    · rw [if_neg (by simp [hx])] at hd
      cases hd
  · intro x d hd
    dsimp only at hd
    by_cases hx : x = src
    · subst hx
      rw [if_pos (beq_self_eq_true x)] at hd
      injection hd with hd
      omega
    · rw [if_neg (by simp [hx])] at hd
      cases hd

theorem sum_map_le_len_mul {α : Type} (l : List α) (f : α → Nat) (M : Nat)
    (h : ∀ x ∈ l, f x ≤ M) : (l.map f).sum ≤ l.length * M := by
  induction l with
  | nil => simp
  | cons a rest ih =>
    simp only [List.map_cons, List.sum_cons, List.length_cons]
    have h1 := h a (List.mem_cons_self _ _)
    have h2 := ih (fun x hx => h x (List.mem_cons_of_mem _ hx))
    have : (rest.length + 1) * M = rest.length * M + M := by ring
    omega

theorem init_phi (reg : Registry) (max_steps : Nat) (src : String) :
    phi (graph_nodes reg src) (2 * max_steps + 3)
      ⟨fun y => if y == src then some 0 else none, fun _ => none, [(0, src)]⟩ <
      dijkstra_fuel reg max_steps src := by
  dsimp only [phi, dijkstra_fuel]
  have hsum := sum_map_le_len_mul (graph_nodes reg src)
    (fun x => slack (2 * max_steps + 3)
      (if (x == src) = true then some 0 else none))
    (2 * max_steps + 3) ?_
  · simp only [List.length_singleton]
    rw [Nat.mul_assoc]
    omega
  · intro x _
    dsimp only
    by_cases hx : x = src
    · rw [if_pos (by simp [hx])]
      simp only [slack]
      omega
    · rw [if_neg (by simp [hx])]
      simp [slack]

/-- The behaviour of `find_conversion_path` in the searching branch: whatever
it returns is a valid prefix-bounded chain, and whenever some prefix-bounded
chain exists, it returns a nonempty one of minimal total weight. -/
theorem find_path_search (reg : Registry) (input_fmt output_fmt : String)
    (max_steps : Nat)
    (hne : (str_lower input_fmt) ≠ (str_lower output_fmt))
    (hnd : registry_has reg
      ((str_lower input_fmt) ++ "_to_" ++ (str_lower output_fmt)) = false) :
    (find_conversion_path reg input_fmt output_fmt max_steps = [] ∨
      (path_steps_ok (format_graph reg) (str_lower input_fmt)
          (find_conversion_path reg input_fmt output_fmt max_steps)
          (str_lower output_fmt) ∧
        (∀ n, n < (find_conversion_path reg input_fmt output_fmt max_steps).length →
          path_weight ((find_conversion_path reg input_fmt output_fmt max_steps).take n) <
            2 * max_steps))) ∧
    (∀ π, path_steps_ok (format_graph reg) (str_lower input_fmt) π (str_lower output_fmt) →
      π ≠ [] →
      (∀ n, n < π.length → path_weight (π.take n) < 2 * max_steps) →
      find_conversion_path reg input_fmt output_fmt max_steps ≠ [] ∧
        path_weight (find_conversion_path reg input_fmt output_fmt max_steps) ≤
          path_weight π) := by
  have hfind : find_conversion_path reg input_fmt output_fmt max_steps =
      (match (dijkstra_loop (2 * max_steps) (format_graph reg)
          (str_lower output_fmt) (dijkstra_fuel reg max_steps (str_lower input_fmt))
          ⟨fun y => if y == (str_lower input_fmt) then some 0 else none,
           fun _ => none, [(0, (str_lower input_fmt))]⟩).prev (str_lower output_fmt) with
       | none => []
       | some _ => rebuild_path (dijkstra_loop (2 * max_steps) (format_graph reg)
          (str_lower output_fmt) (dijkstra_fuel reg max_steps (str_lower input_fmt))
          ⟨fun y => if y == (str_lower input_fmt) then some 0 else none,
           fun _ => none, [(0, (str_lower input_fmt))]⟩).prev (str_lower input_fmt)
          (2 * max_steps + 2) (str_lower output_fmt) []) := by
    simp only [find_conversion_path]
    rw [if_neg (by simp [hne]), if_neg (by simp [hnd])]
  have hbase : DBase (format_graph reg) (2 * max_steps) (str_lower input_fmt)
      (dijkstra_loop (2 * max_steps) (format_graph reg) (str_lower output_fmt)
        (dijkstra_fuel reg max_steps (str_lower input_fmt))
        ⟨fun y => if y == (str_lower input_fmt) then some 0 else none,
         fun _ => none, [(0, (str_lower input_fmt))]⟩) :=
    loop_base (format_graph_weight_bounds reg) _ _
      (init_inv (format_graph reg) (2 * max_steps) (str_lower input_fmt))
  constructor
  · rw [hfind]
    cases hprev : (dijkstra_loop (2 * max_steps) (format_graph reg)
        (str_lower output_fmt) (dijkstra_fuel reg max_steps (str_lower input_fmt))
        ⟨fun y => if y == (str_lower input_fmt) then some 0 else none,
         fun _ => none, [(0, (str_lower input_fmt))]⟩).prev (str_lower output_fmt) with
    | none => exact Or.inl rfl
    | some uk =>
      obtain ⟨u, k⟩ := uk
      obtain ⟨w, du, dx, hedge, hdu, hdx, hle, hduB⟩ :=
        hbase.prev_edge _ u k hprev
      have hdxB := hbase.dist_bound _ dx hdx
      obtain ⟨pre, heq, hsteps, hwle, hbnd⟩ := rebuild_ok
        (fun x e he => (format_graph_weight_bounds reg x e he).1)
        (format_graph_weight reg) hbase (2 * max_steps + 2)
        (str_lower output_fmt) [] dx hdx (by omega)
      rw [List.append_nil] at heq
      right
      dsimp only
      rw [heq]
      exact ⟨hsteps, hbnd⟩
  · intro π hπ hπne hπbnd
    have hreach : ReachInv (format_graph reg) (2 * max_steps) (str_lower output_fmt)
        (path_weight π)
        ⟨fun y => if y == (str_lower input_fmt) then some 0 else none,
         fun _ => none, [(0, (str_lower input_fmt))]⟩ := by
      refine Or.inr ⟨0, (str_lower input_fmt), 0, π, ?_, le_refl 0, hπ, ?_, ?_⟩
      · exact List.mem_singleton.mpr rfl
      · omega
      · intro n hn
        have := hπbnd n hn
        omega
    obtain ⟨dd, hdd, hddle⟩ := loop_completeness
      (format_graph_weight_bounds reg)
      (format_graph_target_nodes reg (str_lower input_fmt))
      (format_graph_weight reg) hne rfl
      (dijkstra_fuel reg max_steps (str_lower input_fmt))
      ⟨fun y => if y == (str_lower input_fmt) then some 0 else none,
       fun _ => none, [(0, (str_lower input_fmt))]⟩
      (init_phi reg max_steps (str_lower input_fmt))
      (init_inv (format_graph reg) (2 * max_steps) (str_lower input_fmt)) hreach
    rcases hbase.dist_prev (str_lower output_fmt) dd hdd with h | h
    · exact absurd h.symm hne
    · cases hprev : (dijkstra_loop (2 * max_steps) (format_graph reg)
          (str_lower output_fmt) (dijkstra_fuel reg max_steps (str_lower input_fmt))
          ⟨fun y => if y == (str_lower input_fmt) then some 0 else none,
           fun _ => none, [(0, (str_lower input_fmt))]⟩).prev (str_lower output_fmt) with
      | none => exact absurd hprev h
      | some uk =>
        have hddB := hbase.dist_bound _ dd hdd
        obtain ⟨pre, heq, hsteps, hwle, hbnd⟩ := rebuild_ok
          (fun x e he => (format_graph_weight_bounds reg x e he).1)
          (format_graph_weight reg) hbase (2 * max_steps + 2)
          (str_lower output_fmt) [] dd hdd (by omega)
        rw [List.append_nil] at heq
        rw [hfind, hprev]
        dsimp only
        rw [heq]
        constructor
        · intro h0
          rw [h0] at hsteps
          exact hne hsteps
        · omega

/-- Structural well-formedness of every nonempty result of
`find_conversion_path`: a chain from the lowercased source format to the
lowercased target format whose converter keys are all registered. -/
theorem find_path_chain (reg : Registry) (input_fmt output_fmt : String)
    (max_steps : Nat)
    (hne2 : find_conversion_path reg input_fmt output_fmt max_steps ≠ []) :
    chain_ok (str_lower input_fmt)
      (find_conversion_path reg input_fmt output_fmt max_steps)
      (str_lower output_fmt) ∧
    ∀ st ∈ find_conversion_path reg input_fmt output_fmt max_steps,
      registry_has reg st.2.2 = true := by
  by_cases heq : (str_lower input_fmt) = (str_lower output_fmt)
  · exfalso
    apply hne2
    simp only [find_conversion_path]
    rw [if_pos (by simp [heq])]
  · by_cases hdk : registry_has reg
        ((str_lower input_fmt) ++ "_to_" ++ (str_lower output_fmt)) = true
    · have hfind : find_conversion_path reg input_fmt output_fmt max_steps =
          [((str_lower input_fmt), (str_lower output_fmt),
            (str_lower input_fmt) ++ "_to_" ++ (str_lower output_fmt))] := by
        simp only [find_conversion_path]
        rw [if_neg (by simp [heq]), if_pos hdk]
      rw [hfind]
      refine ⟨⟨rfl, rfl⟩, ?_⟩
      intro st hst
      simp only [List.mem_singleton] at hst
      subst hst
      exact hdk
    · have hnd : registry_has reg
          ((str_lower input_fmt) ++ "_to_" ++ (str_lower output_fmt)) = false := by
        rwa [Bool.not_eq_true] at hdk
      rcases (find_path_search reg input_fmt output_fmt max_steps heq hnd).1 with
        h0 | ⟨hsteps, -⟩
      · exact absurd h0 hne2
      · exact ⟨chain_ok_of_steps _ _ _ hsteps, steps_keys _ _ _ hsteps⟩


/-! ### Field-map lemmas (`HSET` semantics) -/

theorem lookup_overwrite (k v : String) :
    ∀ fs : Fields,
      (fs.map (fun p => if p.1 == k then (k, v) else p)).lookup k =
        (fs.lookup k).map (fun _ => v) := by
  intro fs
  induction fs with
  | nil => rfl
  | cons p rest ih =>
    obtain ⟨a, b⟩ := p
    by_cases ha : a = k
    · simp only [List.map_cons]
      rw [if_pos (show ((a, b).1 == k) = true from beq_iff_eq.mpr ha)]
      simp only [List.lookup]
      have hkk : (k == k) = true := beq_self_eq_true k
      have hka : (k == a) = true := beq_iff_eq.mpr ha.symm
      rw [hkk, hka]
      rfl
    · simp only [List.map_cons]
      rw [if_neg (show ¬ ((a, b).1 == k) = true from by
        simp only [beq_iff_eq]
        exact ha)]
      simp only [List.lookup]
      have hka : (k == a) = false := beq_eq_false_iff_ne.mpr (Ne.symm ha)
      rw [hka]
      exact ih

theorem lookup_overwrite_ne (k k2 v : String) (hne : k ≠ k2) :
    ∀ fs : Fields,
      (fs.map (fun p => if p.1 == k2 then (k2, v) else p)).lookup k = fs.lookup k := by
  intro fs
  induction fs with
  | nil => rfl
  | cons p rest ih =>
    obtain ⟨a, b⟩ := p
    by_cases ha : a = k2
    · simp only [List.map_cons]
      rw [if_pos (show ((a, b).1 == k2) = true from beq_iff_eq.mpr ha)]
      simp only [List.lookup]
      have h1 : (k == k2) = false := beq_eq_false_iff_ne.mpr hne
      have h2 : (k == a) = false := beq_eq_false_iff_ne.mpr (by rw [ha]; exact hne)
      rw [h1, h2]
      exact ih
    · simp only [List.map_cons]
      rw [if_neg (show ¬ ((a, b).1 == k2) = true from by
        simp only [beq_iff_eq]
        exact ha)]
      simp only [List.lookup]
      cases h2 : k == a
      · exact ih
      · rfl

theorem lookup_append_none (k : String) (l2 : Fields) :
    ∀ fs : Fields, fs.lookup k = none → (fs ++ l2).lookup k = l2.lookup k := by
  intro fs
  induction fs with
  | nil => intro h; rfl
  | cons p rest ih =>
    obtain ⟨a, b⟩ := p
    intro h
    simp only [List.lookup, List.cons_append] at h ⊢
    cases h2 : k == a
    · rw [h2] at h
      exact ih h
    · rw [h2] at h
      cases h

theorem lookup_append_single_ne (k k' v : String) (hne : k ≠ k') :
    ∀ fs : Fields, (fs ++ [(k', v)]).lookup k = fs.lookup k := by
  intro fs
  induction fs with
  | nil =>
    simp only [List.nil_append, List.lookup]
    have h2 : (k == k') = false := by simp [hne]
    rw [h2]
  | cons p rest ih =>
    obtain ⟨a, b⟩ := p
    simp only [List.lookup, List.cons_append]
    cases h2 : k == a
    · exact ih
    · rfl

theorem fget_fset_self (fs : Fields) (k v : String) : fget (fset fs k v) k = some v := by
  unfold fget fset
  by_cases h : (fs.lookup k).isSome = true
  · rw [if_pos h, lookup_overwrite]
    obtain ⟨w, hw⟩ := Option.isSome_iff_exists.mp h
    rw [hw]
    rfl
  · rw [if_neg h]
    have hn : fs.lookup k = none := by
      cases hl : fs.lookup k
      · rfl
      · rw [hl] at h; simp at h
    rw [lookup_append_none k [(k, v)] fs hn]
    simp [List.lookup]

theorem fget_fset_ne (fs : Fields) (k k' v : String) (hne : k ≠ k') :
    fget (fset fs k' v) k = fget fs k := by
  unfold fget fset
  by_cases h : (fs.lookup k').isSome = true
  · rw [if_pos h]
    exact lookup_overwrite_ne k k' v hne fs
  · rw [if_neg h]
    exact lookup_append_single_ne k k' v hne fs

/-! ### Claim-script lemmas -/

theorem claim_not_queued (now : Nat) (st : Store) (task_id : String)
    (h : ∀ f, store_live now st (task_key task_id) = some f →
      ¬ fget f "status" = some "QUEUED") :
    claim_task_with_lua now st task_id = (false, st) := by
  unfold claim_task_with_lua
  cases hs : st (task_key task_id) with
  | none => rfl
  | some fe =>
    dsimp only
    by_cases hlt : now < fe.2
    · rw [if_pos hlt]
      have hlive : store_live now st (task_key task_id) = some fe.1 := by
        unfold store_live
        rw [hs]
        exact if_pos hlt
      have hq : ¬ fget fe.1 "status" = some "QUEUED" := h fe.1 hlive
      rw [if_neg (by simpa using hq)]
    · rw [if_neg hlt]

theorem claim_many_not_queued (now : Nat) (st : Store) (task_id : String)
    (h : ∀ f, store_live now st (task_key task_id) = some f →
      ¬ fget f "status" = some "QUEUED") :
    ∀ n, claim_many now st task_id n = (0, st) := by
  intro n
  induction n with
  | zero => rfl
  | succ m ih =>
    simp only [claim_many, claim_not_queued now st task_id h, ih]
    rfl

/-! ### Concrete fixtures for witnesses and counterexamples -/

/-- A converter that succeeds, reports the output path and writes it to disk. -/
def okConv (i o : String) : Converter :=
  ⟨i, o, fun fs _ out => (true, out, out :: fs)⟩

/-- A converter that fails without touching the disk. -/
def koConv (i o : String) : Converter :=
  ⟨i, o, fun fs _ _ => (false, "err", fs)⟩

/-- Four chained converters: an alias hop `step → stp` followed by three
ordinary hops, reaching `c` in four steps. -/
def regA : Registry :=
  [("step_to_stp", okConv "step" "stp"), ("stp_to_a", okConv "stp" "a"),
   ("a_to_b", okConv "a" "b"), ("b_to_c", okConv "b" "c")]

/-- Two chained converters `a → b → c`. -/
def regAB : Registry :=
  [("a_to_b", okConv "a" "b"), ("b_to_c", okConv "b" "c")]

/-- `a → b` succeeds, the final hop `b → c` fails. -/
def regF : Registry :=
  [("a_to_b", okConv "a" "b"), ("b_to_c", koConv "b" "c")]

/-- A single self-loop converter on format `x`. -/
def regX : Registry :=
  [("x_to_x", okConv "x" "x")]

/-- A store holding one task record `t` with expiry time 300. -/
def store300 (fs : Fields) : Store :=
  fun k => if k == task_key "t" then some (fs, 300) else none

/-- An empty registry admits no chain at all. -/
theorem no_chain_nil (π : List (String × String × String)) (v z : String)
    (h : path_steps_ok (format_graph ([] : Registry)) v π z) : π = [] := by
  cases π with
  | nil => rfl
  | cons s rest =>
    obtain ⟨a, b, k⟩ := s
    obtain ⟨-, ⟨wt, hedge⟩, -⟩ := h
    simp [format_graph] at hedge

/-- `find_conversion_path` only ever uses the lower-cased formats, and
`toLower` is idempotent. -/
theorem find_lower (reg : Registry) (a b : String) (m : Nat) :
    find_conversion_path reg (str_lower a) (str_lower b) m =
      find_conversion_path reg a b m := by
  simp only [find_conversion_path, str_lower_idem]

theorem contains_true_of_mem {l : List String} {t : String} (h : t ∈ l) :
    l.contains t = true := by
  induction l with
  | nil => cases h
  | cons a rest ih =>
    show List.elem t (a :: rest) = true
    simp only [List.elem]
    rcases List.mem_cons.mp h with rfl | h'
    · rw [beq_self_eq_true]
    · cases h2 : t == a
      · exact ih h'
      · rfl

theorem not_mem_of_filter_not_contains {l temps : List String} {t : String}
    (h : t ∈ l.filter (fun f => !temps.contains f)) : t ∉ temps := by
  have h2 := (List.mem_filter.mp h).2
  intro hmem
  rw [contains_true_of_mem hmem] at h2
  cases h2

/-! ### Claims about the task store and the worker -/

/-- C1: `claim_task_with_lua` is a single atomic read-modify-write on the
task record: it returns `true` exactly when the live record's status is
`QUEUED` (and then rewrites the status to `PROCESSING` in place), it returns
`false` both for any other status and for a missing or expired record
(leaving the store untouched), and of `n + 1` serialised claim attempts on
one `QUEUED` task exactly one returns `true`. -/
theorem C1_claim_atomic (now : Nat) (st : Store) (task_id : String) :
    ((claim_task_with_lua now st task_id).1 = true ↔
      ∃ f, store_live now st (task_key task_id) = some f ∧
        fget f "status" = some "QUEUED") ∧
    (∀ f, store_live now st (task_key task_id) = some f →
      fget f "status" = some "QUEUED" →
      store_live now (claim_task_with_lua now st task_id).2 (task_key task_id) =
        some (fset f "status" "PROCESSING")) ∧
    ((claim_task_with_lua now st task_id).1 = false →
      (claim_task_with_lua now st task_id).2 = st) ∧
    (∀ n f, store_live now st (task_key task_id) = some f →
      fget f "status" = some "QUEUED" →
      (claim_many now st task_id (n + 1)).1 = 1) := by
  cases hs : st (task_key task_id) with
  | none =>
    have hlive : store_live now st (task_key task_id) = none := by
      unfold store_live
      rw [hs]
    have hc : claim_task_with_lua now st task_id = (false, st) := by
      unfold claim_task_with_lua
      rw [hs]
    refine ⟨?_, ?_, ?_, ?_⟩
    · rw [hc]
      constructor
      · intro h
        cases h
      · rintro ⟨f, hf, -⟩
        rw [hlive] at hf
        cases hf
    · intro f hf
      rw [hlive] at hf
      cases hf
    · intro h
      rw [hc]
    · intro n f hf
      rw [hlive] at hf
      cases hf
  | some fe =>
    by_cases hlt : now < fe.2
    · have hlive : store_live now st (task_key task_id) = some fe.1 := by
        unfold store_live
        rw [hs]
        exact if_pos hlt
      by_cases hq : fget fe.1 "status" = some "QUEUED"
      · have hqb : (fget fe.1 "status" == some "QUEUED") = true := beq_iff_eq.mpr hq
        have hc : claim_task_with_lua now st task_id =
            (true, fun k => if k == task_key task_id then
              some (fset fe.1 "status" "PROCESSING", fe.2) else st k) := by
          unfold claim_task_with_lua
          rw [hs]
          dsimp only
          rw [if_pos hlt, if_pos hqb]
        have hafter : store_live now (claim_task_with_lua now st task_id).2
            (task_key task_id) = some (fset fe.1 "status" "PROCESSING") := by
          rw [hc]
          unfold store_live
          dsimp only
          rw [if_pos (beq_self_eq_true (task_key task_id))]
          dsimp only
          exact if_pos hlt
        refine ⟨?_, ?_, ?_, ?_⟩
        · rw [hc]
          exact ⟨fun _ => ⟨fe.1, hlive, hq⟩, fun _ => rfl⟩
        · intro f hf hfq
          rw [hlive] at hf
          injection hf with hf
          rw [hafter, hf]
        · intro hfalse
          rw [hc] at hfalse
          cases hfalse
        · intro n f hf hfq
          have hnot : ∀ f2, store_live now (claim_task_with_lua now st task_id).2
              (task_key task_id) = some f2 → ¬ fget f2 "status" = some "QUEUED" := by
            intro f2 hf2
            rw [hafter] at hf2
            injection hf2 with hf2
            rw [← hf2, fget_fset_self]
            intro hcontra
            injection hcontra with hcontra
            exact absurd hcontra (by decide)
          have hrest := claim_many_not_queued now
            (claim_task_with_lua now st task_id).2 task_id hnot n
          have hone : (claim_many now st task_id (n + 1)).1 =
              (if (claim_task_with_lua now st task_id).1 then 1 else 0) +
                (claim_many now (claim_task_with_lua now st task_id).2 task_id n).1 :=
            rfl
          rw [hone, hrest, hc]
          rfl
      · have hqb : (fget fe.1 "status" == some "QUEUED") = false := by
          cases hb : fget fe.1 "status" == some "QUEUED"
          · rfl
          · exact absurd (beq_iff_eq.mp hb) hq
        have hc : claim_task_with_lua now st task_id = (false, st) := by
          unfold claim_task_with_lua
          rw [hs]
          dsimp only
          rw [if_pos hlt, if_neg (by rw [hqb]; exact Bool.false_ne_true)]
        refine ⟨?_, ?_, ?_, ?_⟩
        · rw [hc]
          constructor
          · intro h
            cases h
          · rintro ⟨f, hf, hfq⟩
            rw [hlive] at hf
            injection hf with hf
            rw [hf] at hq
            exact absurd hfq hq
        · intro f hf hfq
          rw [hlive] at hf
          injection hf with hf
          rw [hf] at hq
          exact absurd hfq hq
        · intro h
          rw [hc]
        · intro n f hf hfq
          rw [hlive] at hf
          injection hf with hf
          rw [hf] at hq
          exact absurd hfq hq
    · have hlive : store_live now st (task_key task_id) = none := by
        unfold store_live
        rw [hs]
        exact if_neg hlt
      have hc : claim_task_with_lua now st task_id = (false, st) := by
        unfold claim_task_with_lua
        rw [hs]
        dsimp only
        rw [if_neg hlt]
      refine ⟨?_, ?_, ?_, ?_⟩
      · rw [hc]
        constructor
        · intro h
          cases h
        · rintro ⟨f, hf, -⟩
          rw [hlive] at hf
          cases hf
      · intro f hf
        rw [hlive] at hf
        cases hf
      · intro h
        rw [hc]
      · intro n f hf
        rw [hlive] at hf
        cases hf

/-- C2: what `process_task` actually posts.  When download, conversion,
output check and upload all succeed it updates the task to status `"FINISH"`
(not `COMPLETED`) with the result URL; on any failure it posts `"FAILED"`
with an error message; the posted status is never `"COMPLETED"`; and a
worker-loop iteration keeps running whatever the task's outcome. -/
theorem C2_finish_not_completed (env : WorkerEnv) :
    (env.download_ok = true → env.convert_ok = true → env.result_exists = true →
      env.upload_ok = true →
      process_task_update env = ("FINISH", [("result_url", env.upload_msg)])) ∧
    ((process_task_update env).1 = "FINISH" ∨ (process_task_update env).1 = "FAILED") ∧
    (process_task_update env).1 ≠ "COMPLETED" ∧
    (∀ t : Option WorkerEnv, (worker_iteration t).1 = true) := by
  obtain ⟨d, de, c, cm, r, u, um⟩ := env
  refine ⟨?_, ?_, ?_, fun t => rfl⟩ <;>
    cases d <;> cases c <;> cases r <;> cases u <;>
      simp [process_task_update]

/-- C2's success run posts `"FINISH"`, which differs from the `COMPLETED`
status the download route requires. -/
theorem C2_counterexample :
    process_task_update ⟨true, "", true, "", true, true, "url"⟩ =
      ("FINISH", [("result_url", "url")]) ∧
    ("FINISH" : String) ≠ "COMPLETED" := by decide

/-- C3: `requeue_task` succeeds for every live record whatever its status and
retry count: it unconditionally sets the status back to `QUEUED` and
increments `retry_count` — no retry ceiling is enforced and no status is
terminal. -/
theorem C3_requeue_unconditional (now : Nat) (st : Store) (task_id : String) :
    ((requeue_task now st task_id).1 = true ↔
      (get_task_status now st task_id).isSome = true) ∧
    (∀ f, get_task_status now st task_id = some f →
      ∃ f2, get_task_status now (requeue_task now st task_id).2 task_id = some f2 ∧
        fget f2 "status" = some "QUEUED" ∧
        fget f2 "retry_count" = some (toString (retry_count_of f + 1))) := by
  cases hg : get_task_status now st task_id with
  | none =>
    have hr : requeue_task now st task_id = (false, st) := by
      unfold requeue_task
      rw [hg]
    refine ⟨?_, ?_⟩
    · rw [hr]
      simp
    · intro f hf
      cases hf
  | some f0 =>
    obtain ⟨fe, hs, hlt, hfe⟩ :
        ∃ fe, st (task_key task_id) = some fe ∧ now < fe.2 ∧ fe.1 = f0 := by
      unfold get_task_status store_live at hg
      cases hs : st (task_key task_id) with
      | none =>
        rw [hs] at hg
        cases hg
      | some fe =>
        rw [hs] at hg
        dsimp only at hg
        by_cases hlt : now < fe.2
        · rw [if_pos hlt] at hg
          injection hg with hg
          exact ⟨fe, rfl, hlt, hg⟩
        · rw [if_neg hlt] at hg
          cases hg
    have hupd : update_task_status now st task_id "QUEUED"
        [("retry_count", toString (retry_count_of f0 + 1))] =
        (true, fun k => if k == task_key task_id then
          some (fmerge fe.1 ([("status", "QUEUED"), ("updated_at", toString now)] ++
            [("retry_count", toString (retry_count_of f0 + 1))]), fe.2) else st k) := by
      unfold update_task_status
      rw [hs]
      dsimp only
      rw [if_pos hlt]
    have hr : requeue_task now st task_id = (true, (update_task_status now st task_id
        "QUEUED" [("retry_count", toString (retry_count_of f0 + 1))]).2) := by
      unfold requeue_task
      rw [hg]
    refine ⟨?_, ?_⟩
    · rw [hr]
      simp
    · intro f hf
      injection hf with hf
      refine ⟨fmerge fe.1 ([("status", "QUEUED"), ("updated_at", toString now)] ++
        [("retry_count", toString (retry_count_of f0 + 1))]), ?_, ?_, ?_⟩
      · rw [hr, hupd]
        unfold get_task_status store_live
        dsimp only
        rw [if_pos (beq_self_eq_true (task_key task_id))]
        dsimp only
        exact if_pos hlt
      · rw [show fmerge fe.1 ([("status", "QUEUED"), ("updated_at", toString now)] ++
            [("retry_count", toString (retry_count_of f0 + 1))]) =
          fset (fset (fset fe.1 "status" "QUEUED") "updated_at" (toString now))
            "retry_count" (toString (retry_count_of f0 + 1)) from rfl]
        rw [fget_fset_ne _ _ _ _ (by decide), fget_fset_ne _ _ _ _ (by decide),
          fget_fset_self]
      · rw [← hf]
        rw [show fmerge fe.1 ([("status", "QUEUED"), ("updated_at", toString now)] ++
            [("retry_count", toString (retry_count_of f0 + 1))]) =
          fset (fset (fset fe.1 "status" "QUEUED") "updated_at" (toString now))
            "retry_count" (toString (retry_count_of f0 + 1)) from rfl]
        rw [fget_fset_self]

/-- C3's refutation: a record in the terminal status `COMPLETED` is happily
requeued to `QUEUED` with its retry count incremented. -/
theorem C3_counterexample :
    (requeue_task 100 (store300 [("status", "COMPLETED")]) "t").1 = true ∧
    fget ((get_task_status 100
        (requeue_task 100 (store300 [("status", "COMPLETED")]) "t").2
        "t").getD []) "status" = some "QUEUED" ∧
    fget ((get_task_status 100
        (requeue_task 100 (store300 [("status", "COMPLETED")]) "t").2
        "t").getD []) "retry_count" = some "1" := by decide

/-- C9: `update_task_status` on a live record merges the status, a fresh
`updated_at` and the extra fields, but carries the record's absolute expiry
time over *unchanged* — the time-to-live is never refreshed; on a missing or
expired record it returns `false` and leaves the store as it was. -/
theorem C9_ttl_not_refreshed (now : Nat) (st : Store) (task_id status : String)
    (additional : Fields) :
    (∀ fs e, st (task_key task_id) = some (fs, e) → now < e →
      update_task_status now st task_id status additional =
        (true, fun k => if k == task_key task_id then
          some (fmerge fs ([("status", status), ("updated_at", toString now)] ++
            additional), e)
        else st k)) ∧
    (store_live now st (task_key task_id) = none →
      update_task_status now st task_id status additional = (false, st)) := by
  constructor
  · intro fs e hse hlt
    unfold update_task_status
    rw [hse]
    dsimp only
    rw [if_pos hlt]
  · intro hdead
    unfold store_live at hdead
    unfold update_task_status
    cases hs : st (task_key task_id) with
    | none => rfl
    | some fe =>
      rw [hs] at hdead
      dsimp only at hdead
      dsimp only
      by_cases hlt : now < fe.2
      · rw [if_pos hlt] at hdead
        cases hdead
      · rw [if_neg hlt]

/-- C9's refutation: updating a live record at time 100 leaves its expiry at
300 instead of refreshing it, so at time 350 — well inside a refreshed
lifetime — the record is already gone. -/
theorem C9_counterexample :
    ((update_task_status 100 (store300 [("status", "QUEUED")]) "t" "PROCESSING" []).2
        (task_key "t")).map (fun fe => fe.2) = some 300 ∧
    get_task_status 350
      (update_task_status 100 (store300 [("status", "QUEUED")]) "t" "PROCESSING" []).2
      "t" = none ∧
    (350 : Nat) < 100 + 300 := by decide

/-! ### Claims about path search and routing failure -/

/-- C4: in the searching branch, `find_conversion_path` is pruned by
*accumulated weight*, not by a hop count: every returned path is a chain of
format-graph edges each of whose proper prefixes weighs (in doubled weights)
strictly less than `2 * max_steps`, and whenever any such prefix-bounded
chain exists the returned path is nonempty and of minimal total weight among
them — so ties are broken by the lower `weight_for` the alias edges carry,
and a returned path can hold more than `max_steps` steps. -/
theorem C4_weight_pruned_minimal (reg : Registry) (input_fmt output_fmt : String)
    (max_steps : Nat)
    (hne : str_lower input_fmt ≠ str_lower output_fmt)
    (hnd : registry_has reg
      (str_lower input_fmt ++ "_to_" ++ str_lower output_fmt) = false) :
    (find_conversion_path reg input_fmt output_fmt max_steps = [] ∨
      (path_steps_ok (format_graph reg) (str_lower input_fmt)
          (find_conversion_path reg input_fmt output_fmt max_steps)
          (str_lower output_fmt) ∧
        (∀ n, n < (find_conversion_path reg input_fmt output_fmt max_steps).length →
          path_weight ((find_conversion_path reg input_fmt output_fmt max_steps).take n) <
            2 * max_steps))) ∧
    (∀ π, path_steps_ok (format_graph reg) (str_lower input_fmt) π
        (str_lower output_fmt) →
      π ≠ [] →
      (∀ n, n < π.length → path_weight (π.take n) < 2 * max_steps) →
      find_conversion_path reg input_fmt output_fmt max_steps ≠ [] ∧
        path_weight (find_conversion_path reg input_fmt output_fmt max_steps) ≤
          path_weight π) :=
  find_path_search reg input_fmt output_fmt max_steps hne hnd

/-- C4 at a concrete registry: the searching branch of `find_conversion_path`
returns a sound, prefix-bounded chain for the four-converter registry. -/
theorem C4_witness :
    str_lower "step" ≠ str_lower "c" ∧
    registry_has regA (str_lower "step" ++ "_to_" ++ str_lower "c") = false ∧
    (find_conversion_path regA "step" "c" 3 = [] ∨
      (path_steps_ok (format_graph regA) (str_lower "step")
          (find_conversion_path regA "step" "c" 3) (str_lower "c") ∧
        (∀ n, n < (find_conversion_path regA "step" "c" 3).length →
          path_weight ((find_conversion_path regA "step" "c" 3).take n) < 2 * 3))) :=
  ⟨by decide, by decide,
    (C4_weight_pruned_minimal regA "step" "c" 3 (by decide) (by decide)).1⟩

/-- C4's refutation of the hop bound: with `max_steps = 3` the search returns
a four-step path (the cheap alias edge keeps its accumulated cost under the
pruning bound). -/
theorem C4_counterexample :
    find_conversion_path regA "step" "c" 3 =
      [("step", "stp", "step_to_stp"), ("stp", "a", "stp_to_a"),
       ("a", "b", "a_to_b"), ("b", "c", "b_to_c")] ∧
    ¬ (find_conversion_path regA "step" "c" 3).length ≤ 3 := by decide

/-- `convert_with_path` on an empty path and absent formats: the
routing-failure return value with the f-string printing `None` twice. -/
theorem cwp_empty_path (reg : Registry) (ip op : String) (st : CwpState) :
    (convert_with_path reg ip op [] none none st).result =
      .ret false "无法找到从 None 到 None 的转换路径" := rfl

/-- C5: when no prefix-bounded chain joins the two formats, the search
returns `[]` and `convert` returns a normal `(False, msg)` routing-failure
value rather than raising — but because `convert` passes the path
positionally and never forwards `input_fmt`/`output_fmt`, the message reads
`无法找到从 None 到 None 的转换路径`: it does not carry the source and target
formats. -/
theorem C5_routing_failure (reg : Registry)
    (input_path output_path input_fmt output_fmt : String) (st : CwpState)
    (hie : input_fmt.isEmpty = false) (hoe : output_fmt.isEmpty = false)
    (hne : str_lower input_fmt ≠ str_lower output_fmt)
    (hnd : registry_has reg
      (str_lower input_fmt ++ "_to_" ++ str_lower output_fmt) = false)
    (hnochain : ∀ π, path_steps_ok (format_graph reg) (str_lower input_fmt) π
        (str_lower output_fmt) →
      (∀ n, n < π.length → path_weight (π.take n) < 2 * 3) → π = []) :
    find_conversion_path reg input_fmt output_fmt 3 = [] ∧
    (convert reg input_path output_path (some input_fmt) (some output_fmt) st).result =
      .ret false "无法找到从 None 到 None 的转换路径" := by
  have hempty : find_conversion_path reg input_fmt output_fmt 3 = [] := by
    rcases (find_path_search reg input_fmt output_fmt 3 hne hnd).1 with h | ⟨hsteps, hbnd⟩
    · exact h
    · exact hnochain _ hsteps hbnd
  refine ⟨hempty, ?_⟩
  simp only [convert]
  have h1 : py_truthy (some input_fmt) = true := by
    simp [py_truthy, hie]
  have h2 : py_truthy (some output_fmt) = true := by
    simp [py_truthy, hoe]
  rw [if_pos h1, if_pos h2]
  simp only [Option.getD]
  rw [if_neg (by simp [hne] :
    ¬ (str_lower input_fmt == str_lower output_fmt) = true)]
  rw [find_lower reg input_fmt output_fmt 3, hempty]
  exact cwp_empty_path reg input_path output_path st

/-- C5 at a concrete instance: an empty registry has no conversion chain, the
search returns `[]` and `convert` surfaces the `None`-message routing
failure. -/
theorem C5_witness :
    find_conversion_path ([] : Registry) "a" "c" 3 = [] ∧
    (convert [] "in.a" "out.c" (some "a") (some "c") ⟨[], 0⟩).result =
      .ret false "无法找到从 None 到 None 的转换路径" :=
  C5_routing_failure [] "in.a" "out.c" "a" "c" ⟨[], 0⟩ rfl rfl (by decide) (by decide)
    (fun π h _ => no_chain_nil π _ _ h)

/-- C5's refutation of "carries source/target formats": converting `abc` to
`xyz` yields a failure message that mentions neither format. -/
theorem C5_counterexample :
    (convert ([] : Registry) "f.abc" "g.xyz" (some "abc") (some "xyz") ⟨[], 0⟩).result =
      .ret false "无法找到从 None 到 None 的转换路径" ∧
    ¬ List.IsInfix "abc".data ("无法找到从 None 到 None 的转换路径").data ∧
    ¬ List.IsInfix "xyz".data ("无法找到从 None 到 None 的转换路径").data := by decide

/-- C8: when the lower-cased direct key `a_to_b` is registered and the two
lower-cased formats differ, `find_conversion_path` short-circuits to exactly
that single step without running the weighted search.  The identity check
comes first, so the hypothesis `str_lower a ≠ str_lower b` is necessary. -/
theorem C8_direct_shortcircuit (reg : Registry) (a b : String) (max_steps : Nat)
    (hne : str_lower a ≠ str_lower b)
    (hd : registry_has reg (str_lower a ++ "_to_" ++ str_lower b) = true) :
    find_conversion_path reg a b max_steps =
      [(str_lower a, str_lower b, str_lower a ++ "_to_" ++ str_lower b)] := by
  simp only [find_conversion_path]
  rw [if_neg (by simp [hne]), if_pos hd]

/-- C8 at a concrete registry: the registered direct edge is returned as the
single-step path. -/
theorem C8_witness :
    str_lower "a" ≠ str_lower "b" ∧
    registry_has regAB (str_lower "a" ++ "_to_" ++ str_lower "b") = true ∧
    find_conversion_path regAB "a" "b" 5 =
      [(str_lower "a", str_lower "b", str_lower "a" ++ "_to_" ++ str_lower "b")] :=
  ⟨by decide, by decide, C8_direct_shortcircuit regAB "a" "b" 5 (by decide) (by decide)⟩

/-- C8's refutation for equal formats: a registered self-loop converter
`x_to_x` is never returned — the identity short-circuit yields `[]`. -/
theorem C8_counterexample :
    registry_has regX ("x" ++ "_to_" ++ "x") = true ∧
    find_conversion_path regX "x" "x" 3 = [] := by decide

/-- C10: every nonempty path `find_conversion_path` returns is a well-formed
chain over the registry: it starts at the lower-cased input format, ends at
the lower-cased output format, consecutive steps share their middle format,
and every step's converter key is present in the registry. -/
theorem C10_wellformed_chain (reg : Registry) (input_fmt output_fmt : String)
    (max_steps : Nat)
    (hne2 : find_conversion_path reg input_fmt output_fmt max_steps ≠ []) :
    chain_ok (str_lower input_fmt)
      (find_conversion_path reg input_fmt output_fmt max_steps)
      (str_lower output_fmt) ∧
    ∀ step ∈ find_conversion_path reg input_fmt output_fmt max_steps,
      registry_has reg step.2.2 = true :=
  find_path_chain reg input_fmt output_fmt max_steps hne2

/-- C10 at a concrete registry: the four-step search result is a well-formed
registered chain. -/
theorem C10_witness :
    find_conversion_path regA "step" "c" 3 ≠ [] ∧
    (chain_ok (str_lower "step") (find_conversion_path regA "step" "c" 3)
        (str_lower "c") ∧
      ∀ step ∈ find_conversion_path regA "step" "c" 3,
        registry_has regA step.2.2 = true) :=
  ⟨by decide, C10_wellformed_chain regA "step" "c" 3 (by decide)⟩

/-! ### Claims about path execution: cleanup and step failure -/

/-- C6: whatever the outcome of a `convert_with_path` call — empty path,
single step, or a multi-step pipeline succeeding or failing at any step —
no temporary file created by the call remains on disk when it returns: the
`finally` block filters every recorded temporary out of the file set. -/
theorem C6_cleanup (reg : Registry) (input_path output_path : String)
    (conversion_path : List (String × String × String))
    (input_fmt output_fmt : Option String) (st : CwpState) :
    ∀ t ∈ (convert_with_path reg input_path output_path conversion_path
        input_fmt output_fmt st).temps,
      t ∉ (convert_with_path reg input_path output_path conversion_path
        input_fmt output_fmt st).fs := by
  intro t ht hmem
  simp only [convert_with_path] at ht hmem
  rcases hL : (if conversion_path.isEmpty && py_truthy input_fmt && py_truthy output_fmt
      then find_conversion_path reg (input_fmt.getD "") (output_fmt.getD "") 3
      else conversion_path) with _ | ⟨s1, rest1⟩
  · rw [hL] at ht
    dsimp only at ht
    exact absurd ht (List.not_mem_nil t)
  · rcases rest1 with _ | ⟨s2, rest⟩
    · obtain ⟨a, b, k⟩ := s1
      rw [hL] at ht
      dsimp only at ht
      cases hlk : reg.lookup k with
      | none =>
        rw [hlk] at ht
        dsimp only at ht
        exact absurd ht (List.not_mem_nil t)
      | some conv =>
        rw [hlk] at ht
        dsimp only at ht
        by_cases hrun : (conv.run st.fs input_path output_path).1 = true
        · rw [if_pos hrun] at ht
          dsimp only at ht
          exact absurd ht (List.not_mem_nil t)
        · rw [if_neg hrun] at ht
          dsimp only at ht
          exact absurd ht (List.not_mem_nil t)
    · rw [hL] at ht hmem
      dsimp only at ht hmem
      exact absurd ht (not_mem_of_filter_not_contains hmem)

/-- C6 at a concrete two-step pipeline: its one temporary is recorded and is
absent from the returned file set. -/
theorem C6_witness :
    "/tmp/tmp0.b" ∈ (convert_with_path regAB "in" "out"
        [("a", "b", "a_to_b"), ("b", "c", "b_to_c")] none none ⟨["in"], 0⟩).temps ∧
    "/tmp/tmp0.b" ∉ (convert_with_path regAB "in" "out"
        [("a", "b", "a_to_b"), ("b", "c", "b_to_c")] none none ⟨["in"], 0⟩).fs :=
  ⟨by decide, C6_cleanup regAB "in" "out"
    [("a", "b", "a_to_b"), ("b", "c", "b_to_c")] none none ⟨["in"], 0⟩
    "/tmp/tmp0.b" (by decide)⟩

/-- C7: a failing step in the middle of a pipeline aborts immediately — the
loop returns with only that step's converter appended to the invoked list —
and its message carries the step's 1-based index and its two formats; a
failing *last* step reports only `最后一步转换失败` with the two formats, with
no numeric index. -/
theorem C7_step_abort_message (reg : Registry) (output_path : String)
    (src_fmt dst_fmt key : String) (rest : List (String × String × String))
    (i : Nat) (st : MidState) (conv : Converter)
    (hk : reg.lookup key = some conv)
    (hfail : (conv.run (temp_name st.next_tmp dst_fmt :: st.fs) st.current_input
      (temp_name st.next_tmp dst_fmt)).1 = false) :
    (run_middle reg ((src_fmt, dst_fmt, key) :: rest) i st).1.invoked =
      st.invoked ++ [key] ∧
    (run_middle reg ((src_fmt, dst_fmt, key) :: rest) i st).2 =
      some (.ret false ("转换路径中的步骤 " ++ toString (i + 1) ++ " 失败: "
        ++ src_fmt ++ " -> " ++ dst_fmt)) ∧
    (∀ step mid conv2, reg.lookup step.2.2 = some conv2 →
      (conv2.run mid.fs mid.current_input output_path).1 = false →
      (run_last reg output_path step mid).1 =
        .ret false ("最后一步转换失败: " ++ step.1 ++ " -> " ++ step.2.1)) := by
  have hmid : run_middle reg ((src_fmt, dst_fmt, key) :: rest) i st =
      (⟨st.current_input, (conv.run (temp_name st.next_tmp dst_fmt :: st.fs)
          st.current_input (temp_name st.next_tmp dst_fmt)).2.2, st.next_tmp + 1,
        st.invoked ++ [key], st.temps ++ [temp_name st.next_tmp dst_fmt]⟩,
       some (.ret false ("转换路径中的步骤 " ++ toString (i + 1) ++ " 失败: "
         ++ src_fmt ++ " -> " ++ dst_fmt))) := by
    simp only [run_middle]
    rw [hk]
    dsimp only
    rw [if_neg (by rw [hfail]; exact Bool.false_ne_true)]
  refine ⟨?_, ?_, ?_⟩
  · rw [hmid]
  · rw [hmid]
  · intro step mid conv2 hk2 hf2
    obtain ⟨sa, sb, sk⟩ := step
    dsimp only at hk2 hf2 ⊢
    simp only [run_last]
    rw [hk2]
    dsimp only
    rw [if_neg (by rw [hf2]; exact Bool.false_ne_true)]

/-- C7 at a concrete failing step: the middle loop aborts with the indexed
message, and a failing last step yields the unindexed message. -/
theorem C7_witness :
    (run_middle regF [("b", "c", "b_to_c")] 1 ⟨"i", ["x"], 0, [], []⟩).1.invoked =
      [] ++ ["b_to_c"] ∧
    (run_middle regF [("b", "c", "b_to_c")] 1 ⟨"i", ["x"], 0, [], []⟩).2 =
      some (.ret false ("转换路径中的步骤 " ++ toString (1 + 1) ++ " 失败: "
        ++ "b" ++ " -> " ++ "c")) ∧
    (∀ step mid conv2, regF.lookup step.2.2 = some conv2 →
      (conv2.run mid.fs mid.current_input "o").1 = false →
      (run_last regF "o" step mid).1 =
        .ret false ("最后一步转换失败: " ++ step.1 ++ " -> " ++ step.2.1)) :=
  C7_step_abort_message regF "o" "b" "c" "b_to_c" [] 1 ⟨"i", ["x"], 0, [], []⟩
    (koConv "b" "c") rfl rfl

/-- C7's refutation of the index for the last step: a two-step path whose
second (and last) step fails reports only the formats — the message holds no
occurrence of its 1-based index `2`. -/
theorem C7_counterexample :
    (convert_with_path regF "i" "o" [("a", "b", "a_to_b"), ("b", "c", "b_to_c")]
        none none ⟨["i"], 0⟩).result =
      .ret false "最后一步转换失败: b -> c" ∧
    ¬ List.IsInfix "2".data ("最后一步转换失败: b -> c").data := by decide

end Conv3d
